import Mathlib

/-!
A shallow embedding of the `typeseq` serialization library
(`encode` / `decode` / `decodeWithSchema` and their helpers from the
module that defines `TypeAlias = 's' | 'n' | 'b' | 'd' | 'x'`),
together with proofs about the embedded definitions.

Modelling conventions, fixed once for the whole development:
* JavaScript strings are modelled by Lean `String` (lists of Unicode
  scalar values); key ordering used by `Array.prototype.sort` is
  modelled faithfully by comparing UTF-16 code-unit sequences.
* Finite JavaScript numbers are modelled by `Int` (the library's own
  round-trip story only relies on `Number(String(n)) = n`, which holds
  exactly on this fragment); `NaN`, `+Infinity` and `-Infinity` are
  separate constructors.  `Number(_)` applied to text that is not an
  optionally-signed decimal-integer literal is modelled as `NaN`
  (which the decoder turns into `null`, exactly as non-finite parse
  results are).
* A JavaScript `Date` is modelled by its UTC calendar components; a
  date is valid when the components are in calendar range.  Invalid
  dates make `toISOString` throw, which the model renders as an
  `Except.error`.
* Thrown exceptions are modelled with `Except String`, carrying the
  message built at the `throw new Error(...)` site.
* `undefined` (the omission marker) is `Option.none` at the places the
  source type allows it (`EncodableValue = SupportedValue | undefined`).
-/

/-! ### Generic helpers -/

/-- Boolean "is an error" test for `Except`. -/
def isErr {ε α : Type} : Except ε α → Bool
  | .error _ => true
  | .ok _ => false

/-- Boolean "is ok" test for `Except`. -/
def isOkE {ε α : Type} : Except ε α → Bool
  | .error _ => false
  | .ok _ => true

instance {ε α : Type} [DecidableEq ε] [DecidableEq α] : DecidableEq (Except ε α) := by
  intro a b
  cases a <;> cases b
  case error.error e e' =>
    exact if h : e = e' then .isTrue (by rw [h]) else .isFalse (by simp [h])
  case error.ok e a => exact .isFalse (by simp)
  case ok.error a e => exact .isFalse (by simp)
  case ok.ok a a' =>
    exact if h : a = a' then .isTrue (by rw [h]) else .isFalse (by simp [h])

/-- Property access `l[k]` on an object modelled as an association list
(first binding wins; the decoder keeps keys unique anyway). -/
def lookupKey {β : Type} (l : List (String × β)) (k : String) : Option β :=
  (l.find? (fun p => p.1 = k)).map (fun p => p.2)

/-- Property assignment `obj[k] = v` on an object modelled as an
association list: replaces in place if the key exists (JavaScript keeps
the original insertion position), appends otherwise. -/
def setKey {β : Type} (l : List (String × β)) (k : String) (v : β) : List (String × β) :=
  if l.any (fun p => p.1 = k) then
    l.map (fun p => if p.1 = k then (k, v) else p)
  else
    l ++ [(k, v)]

/-! ### Characters -/

/-- The decimal digit character for `n % 10`. -/
def digitChar (n : Nat) : Char := Char.ofNat (48 + n % 10)

/-- `c` is an ASCII decimal digit. -/
def isDigitB (c : Char) : Bool := decide (48 ≤ c.toNat) && decide (c.toNat ≤ 57)

/-- Numeric value of a digit character. -/
def charToDigit (c : Char) : Nat := c.toNat - 48

/-- The white-space characters recognised by the model of
`String.prototype.trim`. -/
def wsChars : List Char :=
  [' ', '\t', '\n', '\r', Char.ofNat 11, Char.ofNat 12, Char.ofNat 0xA0,
   Char.ofNat 0xFEFF, Char.ofNat 0x2028, Char.ofNat 0x2029]

/-- White-space test for `trim`. -/
def isWsB (c : Char) : Bool := decide (c ∈ wsChars)

/-- Model of `String.prototype.trim` on character lists. -/
def trimChars (l : List Char) : List Char :=
  ((l.dropWhile isWsB).reverse.dropWhile isWsB).reverse

/-- Model of `String.prototype.trim`. -/
def trimS (s : String) : String := ⟨trimChars s.data⟩

/-- ASCII lower-casing of one character (model of `toLowerCase` on the
inputs the library feeds it). -/
def lowerChar (c : Char) : Char :=
  if 65 ≤ c.toNat ∧ c.toNat ≤ 90 then Char.ofNat (c.toNat + 32) else c

/-- Model of `String.prototype.toLowerCase`. -/
def lowerS (s : String) : String := ⟨s.data.map lowerChar⟩

/-! ### UTF-16 code units and the key order used by `sort()` -/

/-- The UTF-16 code-unit sequence of one Unicode scalar value. -/
def utf16Units (c : Char) : List Nat :=
  if c.toNat < 0x10000 then [c.toNat]
  else
    let v := c.toNat - 0x10000
    [0xD800 + v / 0x400, 0xDC00 + v % 0x400]

/-- UTF-16 code units of a character list. -/
def utf16Enc : List Char → List Nat
  | [] => []
  | c :: cs => utf16Units c ++ utf16Enc cs

/-- Lexicographic `≤` on code-unit sequences. -/
def lexLeN : List Nat → List Nat → Bool
  | [], _ => true
  | _ :: _, [] => false
  | a :: as, b :: bs =>
    if a < b then true
    else if a = b then lexLeN as bs
    else false

/-- The string order used by JavaScript's default `sort()` comparator:
lexicographic comparison of UTF-16 code-unit sequences. -/
def utf16Le (a b : String) : Bool := lexLeN (utf16Enc a.data) (utf16Enc b.data)

/-! ### The quote-aware tokenizer (`splitOutsideQuotes`) -/

/-- The character-level scan of `splitOutsideQuotes`, mirroring the
source loop: `buf` is the current field, `inQuotes`/`escaped` the two
scan booleans. -/
def splitAux (sep : Char) : List Char → List Char → Bool → Bool → List (List Char)
  | [], buf, _, _ => [buf]
  | c :: cs, buf, inQuotes, escaped =>
    if escaped then splitAux sep cs (buf ++ [c]) inQuotes false
    else if c = '\\' then splitAux sep cs (buf ++ [c]) inQuotes true
    else if c = '"' then splitAux sep cs (buf ++ [c]) (!inQuotes) escaped
    else if !inQuotes && c = sep then buf :: splitAux sep cs [] inQuotes escaped
    else splitAux sep cs (buf ++ [c]) inQuotes escaped

/-- `splitOutsideQuotes(input, sepChar)` from the source. -/
def splitOutsideQuotes (input : String) (sep : Char) : List String :=
  (splitAux sep input.data [] false false).map (fun l => (⟨l⟩ : String))

/-- Model of `Array.prototype.join` with a one-character separator, on
character lists. -/
def joinChars (sep : Char) : List (List Char) → List Char
  | [] => []
  | [x] => x
  | x :: y :: rest => x ++ sep :: joinChars sep (y :: rest)

/-- Model of `rows.join(sep)`. -/
def joinWith (sep : Char) (l : List String) : String :=
  ⟨joinChars sep (l.map (fun s => s.data))⟩

/-- One step of the pure `(inQuotes, escaped)` state machine of the
tokenizer (no buffers). -/
def scanStep (st : Bool × Bool) (c : Char) : Bool × Bool :=
  if st.2 then (st.1, false)
  else if c = '\\' then (st.1, true)
  else if c = '"' then (!st.1, false)
  else (st.1, false)

/-- State of the tokenizer scan after a list of characters. -/
def scanChars (l : List Char) (st : Bool × Bool) : Bool × Bool :=
  l.foldl scanStep st

/-- Is `c`, met in state `st`, an effective separator (unescaped,
outside quotes, and not consumed by the backslash/quote branches)? -/
def isEffSep (sep : Char) (st : Bool × Bool) (c : Char) : Bool :=
  !st.2 && !(c = '\\') && !(c = '"') && !st.1 && (c = sep)

/-- Number of effective separator occurrences in a character list,
starting from scan state `st`. -/
def countEffSep (sep : Char) : List Char → (Bool × Bool) → Nat
  | [], _ => 0
  | c :: cs, st =>
    (if isEffSep sep st c then 1 else 0) + countEffSep sep cs (scanStep st c)

/-! ### JSON string quoting (`JSON.stringify` on strings, `JSON.parse`
on string literals) -/

/-- Lower-case hexadecimal digit. -/
def hexDigitChar (n : Nat) : Char :=
  if n % 16 < 10 then digitChar (n % 16) else Char.ofNat (87 + n % 16)

/-- How `JSON.stringify` renders one character inside a string literal. -/
def jsonQuoteChar (c : Char) : List Char :=
  if c = '"' then ['\\', '"']
  else if c = '\\' then ['\\', '\\']
  else if c.toNat = 8 then ['\\', 'b']
  else if c.toNat = 9 then ['\\', 't']
  else if c.toNat = 10 then ['\\', 'n']
  else if c.toNat = 12 then ['\\', 'f']
  else if c.toNat = 13 then ['\\', 'r']
  else if c.toNat < 32 then
    ['\\', 'u', '0', '0', hexDigitChar (c.toNat / 16), hexDigitChar (c.toNat % 16)]
  else [c]

/-- Body of a `JSON.stringify` string literal. -/
def jsonQuoteBody : List Char → List Char
  | [] => []
  | c :: cs => jsonQuoteChar c ++ jsonQuoteBody cs

/-- `JSON.stringify` of a string, on character lists. -/
def jsonQuoteChars (l : List Char) : List Char := '"' :: (jsonQuoteBody l ++ ['"'])

/-- `JSON.stringify` of a string value. -/
def jsonQuoteS (s : String) : String := ⟨jsonQuoteChars s.data⟩

/-- Value of one hexadecimal digit character. -/
def hexVal (c : Char) : Option Nat :=
  if isDigitB c then some (charToDigit c)
  else if 97 ≤ c.toNat ∧ c.toNat ≤ 102 then some (c.toNat - 87)
  else if 65 ≤ c.toNat ∧ c.toNat ≤ 70 then some (c.toNat - 55)
  else none

/-- Combine four hex digits. -/
def hex4 (a b c d : Char) : Option Nat := do
  let a ← hexVal a
  let b ← hexVal b
  let c ← hexVal c
  let d ← hexVal d
  some (((a * 16 + b) * 16 + c) * 16 + d)

/-- One simple (single-character) JSON escape. -/
def jsonSimpleEscape (e : Char) : Option Char :=
  if e = '"' then some '"'
  else if e = '\\' then some '\\'
  else if e = '/' then some '/'
  else if e = 'b' then some (Char.ofNat 8)
  else if e = 'f' then some (Char.ofNat 12)
  else if e = 'n' then some (Char.ofNat 10)
  else if e = 'r' then some (Char.ofNat 13)
  else if e = 't' then some (Char.ofNat 9)
  else none

/-- Parser for the body of a JSON string literal (everything after the
opening quote); returns the decoded characters.  `none` models a
`SyntaxError` thrown by `JSON.parse`.  Consumes the closing quote and
requires the input to end there (the library always passes trimmed
text).  The model covers the escapes `JSON.stringify` emits (the simple
escapes and `\u00XX`) plus raw characters; surrogate-pair `\u` escapes,
which the library never produces, are out of the model and rejected. -/
def junquoteBody : List Char → Option (List Char)
  | [] => none
  | c :: rest =>
    if c = '"' then (if rest = [] then some [] else none)
    else if c = '\\' then
      match rest with
      | [] => none
      | e :: rest2 =>
        if e = 'u' then
          match rest2 with
          | h1 :: h2 :: h3 :: h4 :: rest3 =>
            match hex4 h1 h2 h3 h4 with
            | none => none
            | some v =>
              if v < 55296 ∨ 57343 < v then
                (junquoteBody rest3).map (fun tl => Char.ofNat v :: tl)
              else none
          | _ => none
        else
          match jsonSimpleEscape e with
          | none => none
          | some ch => (junquoteBody rest2).map (fun tl => ch :: tl)
    else if c.toNat < 32 then none
    else (junquoteBody rest).map (fun tl => c :: tl)

/-- `JSON.parse` of a (trimmed) text expected to be a string literal. -/
def junquoteChars (l : List Char) : Option (List Char) :=
  match l with
  | '"' :: rest => junquoteBody rest
  | _ => none

/-- `JSON.parse` on strings, returning `none` for a `SyntaxError`. -/
def junquoteS (s : String) : Option String :=
  (junquoteChars s.data).map (fun l => (⟨l⟩ : String))

/-! ### Numbers -/

/-- A JavaScript number: a finite value (modelled on the
exactly-representable integer fragment) or one of the non-finite
values. -/
inductive JSNum where
  | fin (i : Int)
  | nan
  | posInf
  | negInf
deriving DecidableEq

/-- Decimal digits of a natural number (no leading zeros), with
structural fuel; `natDigits` supplies enough fuel. -/
def natDigitsAux : Nat → Nat → List Char
  | 0, _ => []
  | fuel + 1, n =>
    if n < 10 then [digitChar n] else natDigitsAux fuel (n / 10) ++ [digitChar (n % 10)]

/-- Decimal digits of a natural number (no leading zeros), mirroring
`String(n)`. -/
def natDigits (n : Nat) : List Char := natDigitsAux (n + 1) n

/-- `String(n)` for a finite number. -/
def intToDecString (i : Int) : String :=
  if i < 0 then ⟨'-' :: natDigits i.natAbs⟩ else ⟨natDigits i.natAbs⟩

/-- Value of a digit list. -/
def digitsVal (l : List Char) : Nat :=
  l.foldl (fun a c => a * 10 + charToDigit c) 0

/-- Parse a non-empty all-digit list. -/
def parseNatAll (l : List Char) : Option Nat :=
  if l ≠ [] ∧ l.all isDigitB then some (digitsVal l) else none

/-- Model of `Number(text)` on trimmed, non-empty text: an optionally
signed decimal-integer literal yields its (finite) value, anything else
is `NaN`.  (Real `Number` also accepts fractional/exponent/hex forms;
on everything the library itself produces the two functions agree.) -/
def jsNumberParse (l : List Char) : JSNum :=
  match l with
  | [] =>
    match parseNatAll [] with
    | some n => .fin (n : Int)
    | none => .nan
  | c :: rest =>
    if c = '-' then
      match parseNatAll rest with
      | some n => .fin (-(n : Int))
      | none => .nan
    else if c = '+' then
      match parseNatAll rest with
      | some n => .fin (n : Int)
      | none => .nan
    else
      match parseNatAll (c :: rest) with
      | some n => .fin (n : Int)
      | none => .nan

/-! ### Dates -/

/-- A JavaScript `Date`, modelled by its UTC calendar components. -/
structure JSDate where
  year : Int
  month : Nat
  day : Nat
  hour : Nat
  minute : Nat
  second : Nat
  milli : Nat
deriving DecidableEq

/-- Gregorian leap-year test. -/
def isLeap (y : Int) : Bool :=
  decide (y % 4 = 0) && (!decide (y % 100 = 0) || decide (y % 400 = 0))

/-- Days in a month. -/
def daysInMonth (y : Int) (m : Nat) : Nat :=
  match m with
  | 1 => 31 | 2 => if isLeap y then 29 else 28 | 3 => 31 | 4 => 30
  | 5 => 31 | 6 => 30 | 7 => 31 | 8 => 31 | 9 => 30 | 10 => 31
  | 11 => 30 | 12 => 31
  | _ => 0

/-- The date is a valid (non-`NaN`) `Date` value: calendar-valid
components within the range `Date` can represent. -/
def validDate (d : JSDate) : Bool :=
  decide (-271820 ≤ d.year) && decide (d.year ≤ 275759) &&
  decide (1 ≤ d.month) && decide (d.month ≤ 12) &&
  decide (1 ≤ d.day) && decide (d.day ≤ daysInMonth d.year d.month) &&
  decide (d.hour ≤ 23) && decide (d.minute ≤ 59) && decide (d.second ≤ 59) &&
  decide (d.milli ≤ 999)

/-- Exactly `k` decimal digits of `n` (most significant first, with
leading zeros). -/
def padDigits : Nat → Nat → List Char
  | 0, _ => []
  | k + 1, n => digitChar (n / 10 ^ k) :: padDigits k (n % 10 ^ k)

/-- The year field of `toISOString`: four digits for years 0–9999, the
expanded `±YYYYYY` form otherwise. -/
def yearChars (y : Int) : List Char :=
  if 0 ≤ y ∧ y ≤ 9999 then padDigits 4 y.toNat
  else (if y < 0 then '-' else '+') :: padDigits 6 y.natAbs

/-- `Date.prototype.toISOString`, on character lists. -/
def formatISOChars (d : JSDate) : List Char :=
  yearChars d.year ++ '-' :: padDigits 2 d.month ++ '-' :: padDigits 2 d.day ++
  'T' :: padDigits 2 d.hour ++ ':' :: padDigits 2 d.minute ++
  ':' :: padDigits 2 d.second ++ '.' :: padDigits 3 d.milli ++ ['Z']

/-- `Date.prototype.toISOString` (only called on valid dates). -/
def formatISO (d : JSDate) : String := ⟨formatISOChars d⟩

/-- Consume exactly `k` digit characters, accumulating their value. -/
def parseFixedAux : Nat → List Char → Nat → Option (Nat × List Char)
  | 0, l, acc => some (acc, l)
  | _ + 1, [], _ => none
  | k + 1, c :: l, acc =>
    if isDigitB c then parseFixedAux k l (acc * 10 + charToDigit c) else none

/-- Consume exactly `k` digit characters. -/
def parseFixed (k : Nat) (l : List Char) : Option (Nat × List Char) :=
  parseFixedAux k l 0

/-- Consume one expected character. -/
def expectChar (c : Char) : List Char → Option (List Char)
  | [] => none
  | x :: rest => if x = c then some rest else none

/-- Everything of an ISO-8601 timestamp after the year field. -/
def parseISOTail (y : Int) (l : List Char) : Option JSDate := do
  let l ← expectChar '-' l
  let (mo, l) ← parseFixed 2 l
  let l ← expectChar '-' l
  let (da, l) ← parseFixed 2 l
  let l ← expectChar 'T' l
  let (ho, l) ← parseFixed 2 l
  let l ← expectChar ':' l
  let (mi, l) ← parseFixed 2 l
  let l ← expectChar ':' l
  let (se, l) ← parseFixed 2 l
  let l ← expectChar '.' l
  let (ms, l) ← parseFixed 3 l
  let l ← expectChar 'Z' l
  match l with
  | [] =>
    let d : JSDate := ⟨y, mo, da, ho, mi, se, ms⟩
    if validDate d then some d else none
  | _ => none

/-- Model of `new Date(text)` on the ISO timestamps the library
produces and consumes: the `toISOString` grammar (with expanded years),
`none` for anything invalid (a `NaN`-time `Date`). -/
def parseISOChars (l : List Char) : Option JSDate :=
  match l with
  | [] => none
  | c :: cs =>
    if c = '+' then (parseFixed 6 cs).bind (fun p => parseISOTail (Int.ofNat p.1) p.2)
    else if c = '-' then (parseFixed 6 cs).bind (fun p => parseISOTail (-(Int.ofNat p.1)) p.2)
    else (parseFixed 4 l).bind (fun p => parseISOTail (Int.ofNat p.1) p.2)

/-! ### Values and the alias resolver -/

/-- `SupportedValue = string | number | boolean | Date | null`. -/
inductive SupportedValue where
  | str (s : String)
  | num (n : JSNum)
  | boolean (b : Bool)
  | date (d : JSDate)
  | null
deriving DecidableEq

/-- `EncodableValue = SupportedValue | undefined`; `none` is
`undefined`. -/
abbrev EncodableValue := Option SupportedValue

/-- The five type aliases. -/
inductive TypeAlias where
  | s | n | b | d | x
deriving DecidableEq

/-- The alias's one-character spelling. -/
def aliasStr : TypeAlias → String
  | .s => "s" | .n => "n" | .b => "b" | .d => "d" | .x => "x"

/-- Alias lookup on the (trimmed) alias field, mirroring the indexing
of `ALIAS_TO_PARSER` (`none` = unknown alias). -/
def aliasOfString (t : String) : Option TypeAlias :=
  if t = "s" then some .s
  else if t = "n" then some .n
  else if t = "b" then some .b
  else if t = "d" then some .d
  else if t = "x" then some .x
  else none

/-- `inferAlias`, branch for branch: `null` first, `instanceof Date`
next, then the `typeof` dispatch.  Total on `SupportedValue` (the
`UnsupportedTypeError` branch is unreachable for values of this type). -/
def inferAlias (v : SupportedValue) : TypeAlias :=
  match v with
  | .null => .x
  | .date _ => .d
  | .str _ => .s
  | .num _ => .n
  | .boolean _ => .b

/-- JavaScript truthiness of a `SupportedValue` (used to mirror the
unchecked `value as boolean` cast in `encodeValue`). -/
def truthy (v : SupportedValue) : Bool :=
  match v with
  | .str s => decide (s ≠ "")
  | .num (.fin i) => decide (i ≠ 0)
  | .num .nan => false
  | .num .posInf => true
  | .num .negInf => true
  | .boolean b => b
  | .date _ => true
  | .null => false

/-- `encodeValue(alias, key, value)`.  The unchecked `as number` /
`as boolean` casts are modelled by their actual runtime behaviour
(`Number.isFinite` is false on non-numbers; truthiness for booleans);
`JSON.stringify(value)` in the `s` branch is only ever reached with a
string.  `toISOString` on an invalid date throws a `RangeError`. -/
def encodeValue (al : TypeAlias) (key : String) (v : SupportedValue) :
    Except String String :=
  match al with
  | .x => .ok ""
  | .s =>
    match v with
    | .str s => .ok (jsonQuoteS s)
    | _ => .error "unreachable: JSON.stringify cast"
  | .n =>
    match v with
    | .num (.fin i) => .ok (intToDecString i)
    | _ => .ok ""
  | .b => .ok (if truthy v then "true" else "false")
  | .d =>
    match v with
    | .date dt =>
      if validDate dt then .ok (jsonQuoteS (formatISO dt))
      else .error "RangeError: Invalid time value"
    | _ => .error ("Expected Date for \"" ++ key ++ "\"")

/-- The body of `encode`'s loop over the sorted keys: skip `undefined`,
otherwise render `key;alias;value`. -/
def encodeRowsAux : List (String × EncodableValue) → Except String (List String)
  | [] => .ok []
  | (_, none) :: rest => encodeRowsAux rest
  | (k, some v) :: rest => do
    let al := inferAlias v
    let ev ← encodeValue al k v
    let rows ← encodeRowsAux rest
    .ok ((k ++ ";" ++ aliasStr al ++ ";" ++ ev) :: rows)

/-- Sorted insertion under a boolean `le` (stable, like
`Array.prototype.sort`). -/
def insertByLe {α : Type} (le : α → α → Bool) (a : α) : List α → List α
  | [] => [a]
  | b :: bs => if le a b then a :: b :: bs else b :: insertByLe le a bs

/-- Insertion sort under a boolean `le` (a stable comparison sort, as
`Array.prototype.sort` is specified to be). -/
def sortByLe {α : Type} (le : α → α → Bool) (l : List α) : List α :=
  l.foldr (insertByLe le) []

/-- `Object.keys(obj).sort()` on the association-list model: sort the
entries by key in the UTF-16 code-unit order `sort()` uses.  (Looking
every sorted key back up in the object is the same as iterating the
sorted entries, the keys of an object being distinct.) -/
def sortByKey (r : List (String × EncodableValue)) : List (String × EncodableValue) :=
  sortByLe (fun p q => utf16Le p.1 q.1) r

/-- `encode(obj)`.  The `isPlainObject` guard cannot fire on the
association-list model of a flat plain object. -/
def encode (r : List (String × EncodableValue)) : Except String String := do
  let rows ← encodeRowsAux (sortByKey r)
  .ok (joinWith '|' rows)

/-! ### The decoder -/

/-- `ALIAS_TO_PARSER[alias](raw)`. -/
def aliasParse (al : TypeAlias) (raw : String) : Except String SupportedValue :=
  match al with
  | .s =>
    let trimmed := trimS raw
    if trimmed.data.head? = some '"' ∧ trimmed.data.getLast? = some '"' then
      match junquoteS trimmed with
      | some s => .ok (.str s)
      | none => .error ("SyntaxError: JSON.parse: " ++ raw)
    else .ok (.str trimmed)
  | .n =>
    let trimmed := trimS raw
    if trimmed = "" then .ok .null
    else
      match jsNumberParse trimmed.data with
      | .fin i => .ok (.num (.fin i))
      | _ => .ok .null
  | .b =>
    let v := lowerS (trimS raw)
    if v = "true" then .ok (.boolean true)
    else if v = "false" then .ok (.boolean false)
    else .error ("Invalid boolean: " ++ raw)
  | .d =>
    let trimmed := trimS raw
    let quoted := trimmed.data.head? = some '"' ∧ trimmed.data.getLast? = some '"'
    match if quoted then junquoteS trimmed else some trimmed with
    | none => .error ("SyntaxError: JSON.parse: " ++ raw)
    | some str =>
      match parseISOChars str.data with
      | some dt => .ok (.date dt)
      | none => .error ("Invalid date: " ++ raw)
  | .x => .ok .null

/-- The body of `decode`'s loop for one row: split on `;`, require
exactly 3 parts, trim key and alias, reject empty keys and unknown
aliases, then parse the raw value. -/
def parseRow (row : String) : Except String (String × SupportedValue) :=
  match splitOutsideQuotes row ';' with
  | [keyRaw, typeRaw, valueRaw] =>
    let key := trimS keyRaw
    let ty := trimS typeRaw
    if key = "" then .error ("Empty key in row: " ++ row)
    else
      match aliasOfString ty with
      | none => .error ("Unknown type alias \"" ++ ty ++ "\" in row: " ++ row)
      | some al =>
        match aliasParse al valueRaw with
        | .ok v => .ok (key, v)
        | .error e => .error e
  | _ => .error ("Invalid row (expected 3 parts): " ++ row)

/-- `decode`'s loop over the rows, accumulating `result[key] = value`. -/
def decodeRowsAux : List String → List (String × SupportedValue) →
    Except String (List (String × SupportedValue))
  | [], acc => .ok acc
  | row :: rest, acc =>
    match parseRow row with
    | .error e => .error e
    | .ok (k, v) => decodeRowsAux rest (setKey acc k v)

/-- The rows of a document: split on `|`, drop empty rows. -/
def docRows (str : String) : List String :=
  (splitOutsideQuotes str '|').filter (fun r => r.length > 0)

/-- `decode(str)`.  The `typeof str !== 'string'` guard cannot fire on
a `String` argument. -/
def decode (str : String) : Except String (List (String × SupportedValue)) :=
  decodeRowsAux (docRows str) []

/-! ### The schema validator -/

/-- `SchemaValue = TypeAlias | { type, optional? }`; `Boolean(undefined)`
is `false`, so the descriptor's flag is modelled as a plain `Bool`. -/
inductive SchemaValue where
  | bare (t : TypeAlias)
  | withOpt (t : TypeAlias) (optional : Bool)
deriving DecidableEq

/-- `normalizeSchemaValue`. -/
def normalizeSchemaValue : SchemaValue → TypeAlias × Bool
  | .bare t => (t, false)
  | .withOpt t o => (t, o)

/-- `decodeWithSchema`'s loop over the schema fields, in declaration
order.  The output field for an absent optional key is an explicit
`undefined` (`none`). -/
def schemaLoopAux (raw : List (String × SupportedValue)) :
    List (String × SchemaValue) → Except String (List (String × Option SupportedValue))
  | [] => .ok []
  | (k, sv) :: rest =>
    let norm := normalizeSchemaValue sv
    match lookupKey raw k with
    | none =>
      if norm.2 then (schemaLoopAux raw rest).map (fun out => (k, none) :: out)
      else .error ("Missing required key \"" ++ k ++ "\"")
    | some val =>
      let actual := inferAlias val
      if actual = norm.1 then
        (schemaLoopAux raw rest).map (fun out => (k, some val) :: out)
      else
        .error ("Type mismatch for \"" ++ k ++ "\": expected " ++ aliasStr norm.1 ++
          " but got " ++ aliasStr actual)

/-- `decodeWithSchema(str, schema)`. -/
def decodeWithSchema (str : String) (schema : List (String × SchemaValue)) :
    Except String (List (String × Option SupportedValue)) := do
  let raw ← decode str
  schemaLoopAux raw schema

/-! ### Concrete records used by individual claims -/

/-- The record of the spec's literal scenario (`note: undefined` is the
omitted field of the README variant; the spec's record has no `note`). -/
def litRecord : List (String × EncodableValue) :=
  [("name", some (.str "Yanto Kopling")), ("age", some (.num (.fin 27))),
   ("score", some (.num .nan)), ("active", some (.boolean true)),
   ("createdAt", some (.date ⟨2025, 12, 29, 10, 0, 0, 0⟩)),
   ("deletedAt", some .null)]

/-! ### Decode-loop lemmas: assignment and duplicate keys -/

/-- The parsed value of the last row of `rows` whose (trimmed) key is
`k`, in document order. -/
def lastValueFor (k : String) : List String → Option SupportedValue
  | [] => none
  | row :: rest =>
    match lastValueFor k rest with
    | some v => some v
    | none =>
      match parseRow row with
      | .ok p => if p.1 = k then some p.2 else none
      | .error _ => none

/-! ### Decode error conditions -/

/-- The exact conditions under which one row makes `decode` fail,
stated structurally: not exactly 3 fields, empty trimmed key, unknown
trimmed alias, a quoted-but-malformed string literal under alias `s`
(this is the condition the spec's list omits), an invalid boolean under
`b`, or invalid (possibly quoted-malformed) date text under `d`. -/
def rowBad (row : String) : Bool :=
  match splitOutsideQuotes row ';' with
  | [keyRaw, typeRaw, valueRaw] =>
    if trimS keyRaw = "" then true
    else
      match aliasOfString (trimS typeRaw) with
      | none => true
      | some .s =>
        let t := trimS valueRaw
        decide (t.data.head? = some '"') && decide (t.data.getLast? = some '"') &&
          decide (junquoteS t = none)
      | some .n => false
      | some .b =>
        let v := lowerS (trimS valueRaw)
        !(decide (v = "true") || decide (v = "false"))
      | some .d =>
        let t := trimS valueRaw
        match (if t.data.head? = some '"' ∧ t.data.getLast? = some '"'
               then junquoteS t else some t) with
        | none => true
        | some str => decide (parseISOChars str.data = none)
      | some .x => false
  | _ => true

/-- The claim's list of row-failure conditions, word for word: not
exactly 3 fields, empty trimmed key, unknown trimmed alias, or invalid
boolean/date raw text under aliases `b`/`d` — with *no* condition for
alias `s`. -/
def claimRowBad (row : String) : Bool :=
  match splitOutsideQuotes row ';' with
  | [keyRaw, typeRaw, valueRaw] =>
    if trimS keyRaw = "" then true
    else
      match aliasOfString (trimS typeRaw) with
      | none => true
      | some .s => false
      | some .n => false
      | some .b =>
        let v := lowerS (trimS valueRaw)
        !(decide (v = "true") || decide (v = "false"))
      | some .d =>
        let t := trimS valueRaw
        match (if t.data.head? = some '"' ∧ t.data.getLast? = some '"'
               then junquoteS t else some t) with
        | none => true
        | some str => decide (parseISOChars str.data = none)
      | some .x => false
  | _ => true

/-- Modelled from the spec's words: keys "sorted by key (lexicographic,
code-point order)" — lexicographic comparison of the sequences of
Unicode code points.  Used only to compare the spec's claimed order
against the order the code actually uses. -/
def specCodePointLe (a b : String) : Bool :=
  lexLeN (a.data.map Char.toNat) (b.data.map Char.toNat)

/-! ### Round-trip: well-formedness and per-field lemmas -/

/-- A key that survives the wire format and `trim` unchanged: non-empty,
free of the two separators, the quote and the backslash, and with
non-whitespace first and last characters. -/
def GoodKeyB (k : String) : Bool :=
  decide (k.data ≠ []) &&
  k.data.all (fun c =>
    !decide (c = '"') && !decide (c = '\\') && !decide (c = ';') && !decide (c = '|')) &&
  (k.data.head?.elim false (fun c => !isWsB c)) &&
  (k.data.getLast?.elim false (fun c => !isWsB c))

/-- A value `encode` can serialize without throwing: everything except
an invalid (`NaN`-time) date. -/
def cleanValueB : SupportedValue → Bool
  | .date dt => validDate dt
  | _ => true

/-- What a value decodes back to after one encode/decode round trip:
non-finite numbers become `null`, everything else is unchanged. -/
def roundValue : SupportedValue → SupportedValue
  | .num .nan => .null
  | .num .posInf => .null
  | .num .negInf => .null
  | v => v

/-- The raw text `encodeValue` produces for a clean value. -/
def rawText : SupportedValue → String
  | .str s => jsonQuoteS s
  | .num (.fin i) => intToDecString i
  | .num _ => ""
  | .boolean b => if b then "true" else "false"
  | .date dt => jsonQuoteS (formatISO dt)
  | .null => ""

/-- The row `encode` emits for a clean field. -/
def renderRow (k : String) (v : SupportedValue) : String :=
  k ++ ";" ++ aliasStr (inferAlias v) ++ ";" ++ rawText v

/-!
## Theorems

Everything below is proved about the definitions above; no further
definitions are introduced.
-/

theorem toNat_charOfNat_valid (n : Nat) (h : Nat.isValidChar n) :
    (Char.ofNat n).toNat = n := by
  simp only [Char.ofNat, h, dif_pos, Char.ofNatAux, Char.toNat]
  rfl

theorem toNat_digitChar (n : Nat) : (digitChar n).toNat = 48 + n % 10 := by
  have h : Nat.isValidChar (48 + n % 10) := by
    left
    have := Nat.mod_lt n (y := 10) (by omega)
    omega
  simpa [digitChar] using toNat_charOfNat_valid _ h

theorem digitChar_eq_char (n : Nat) (h : n < 10) :
    digitChar n = Char.ofNat (48 + n) := by
  simp [digitChar, Nat.mod_eq_of_lt h]

/-- C4: `encode` of the literal-scenario record produces exactly the
string given in the spec (keys sorted, `b`/`n`/`d`/`x`/`s` raw texts as
specified). -/
theorem c4_literal_scenario :
    encode litRecord =
      .ok "active;b;true|age;n;27|createdAt;d;\"2025-12-29T10:00:00.000Z\"|deletedAt;x;|name;s;\"Yanto Kopling\"|score;n;" := by
  rfl

/-- C2: what the code actually does on a non-finite number field
validated under the alias `n` it was encoded with.  `encode` renders
`score: NaN` as `score;n;`, `decode` turns it into `null`, and
`decodeWithSchema` with the schema `{score: 'n'}` then *throws* a
type-mismatch error (`inferAlias(null) = 'x' ≠ 'n'`), instead of
returning the null-valued field; the same document passes only under
the alias `x`. -/
theorem c2_nonfinite_number_schema_mismatch :
    encode [("score", some (.num .nan))] = .ok "score;n;" ∧
    decodeWithSchema "score;n;" [("score", .bare .n)] =
      .error "Type mismatch for \"score\": expected n but got x" ∧
    decodeWithSchema "score;n;" [("score", .bare .x)] = .ok [("score", some .null)] :=
  ⟨rfl, rfl, rfl⟩

/-! ### Tokenizer lemmas -/

theorem scanChars_cons (c : Char) (cs : List Char) (st : Bool × Bool) :
    scanChars (c :: cs) st = scanChars cs (scanStep st c) := rfl

theorem splitAux_length (sep : Char) (cs : List Char) :
    ∀ (buf : List Char) (q e : Bool),
      (splitAux sep cs buf q e).length = countEffSep sep cs (q, e) + 1 := by
  induction cs with
  | nil => intro buf q e; simp [splitAux, countEffSep]
  | cons c cs ih =>
    intro buf q e
    by_cases he : e
    · simp [splitAux, countEffSep, he, isEffSep, scanStep, ih]
    · by_cases hbs : c = '\\'
      · simp [splitAux, countEffSep, he, hbs, isEffSep, scanStep, ih]
      · by_cases hq : c = '"'
        · simp [splitAux, countEffSep, he, hbs, hq, isEffSep, scanStep, ih]
        · by_cases hsep : (!q && c = sep) = true
          · have hq' : q = false := by
              rcases Bool.and_eq_true _ _ |>.mp hsep with ⟨h1, _⟩
              simpa using h1
            have hc : c = sep := by
              rcases Bool.and_eq_true _ _ |>.mp hsep with ⟨_, h2⟩
              simpa using h2
            subst hc
            simp [splitAux, countEffSep, he, hbs, hq, hsep, hq', isEffSep, scanStep, ih]
            omega
          · simp [splitAux, countEffSep, he, hbs, hq, hsep, isEffSep, scanStep, ih]

theorem splitAux_ne_nil (sep : Char) (cs buf : List Char) (q e : Bool) :
    splitAux sep cs buf q e ≠ [] := by
  intro h
  have := splitAux_length sep cs buf q e
  rw [h] at this
  simp at this

theorem splitAux_nil (sep : Char) (buf : List Char) (q e : Bool) :
    splitAux sep [] buf q e = [buf] := rfl

theorem splitAux_cons_esc (sep c : Char) (cs buf : List Char) (q : Bool) :
    splitAux sep (c :: cs) buf q true = splitAux sep cs (buf ++ [c]) q false := by
  simp [splitAux]

theorem splitAux_cons_bs (sep : Char) (cs buf : List Char) (q : Bool) :
    splitAux sep ('\\' :: cs) buf q false = splitAux sep cs (buf ++ ['\\']) q true := by
  simp [splitAux]

theorem splitAux_cons_quote (sep : Char) (cs buf : List Char) (q : Bool) :
    splitAux sep ('"' :: cs) buf q false = splitAux sep cs (buf ++ ['"']) (!q) false := by
  simp [splitAux]

theorem splitAux_cons_sep (sep : Char) (cs buf : List Char)
    (h1 : sep ≠ '\\') (h2 : sep ≠ '"') :
    splitAux sep (sep :: cs) buf false false = buf :: splitAux sep cs [] false false := by
  simp [splitAux, h1, h2]

theorem splitAux_cons_plain (sep c : Char) (cs buf : List Char) (q : Bool)
    (h1 : c ≠ '\\') (h2 : c ≠ '"') (h3 : q = true ∨ c ≠ sep) :
    splitAux sep (c :: cs) buf q false = splitAux sep cs (buf ++ [c]) q false := by
  rcases h3 with h3 | h3
  · subst h3; simp [splitAux, h1, h2]
  · simp [splitAux, h1, h2, h3]

theorem scanStep_esc (c : Char) (q : Bool) : scanStep (q, true) c = (q, false) := by
  simp [scanStep]

theorem scanStep_bs (q : Bool) : scanStep (q, false) '\\' = (q, true) := by
  simp [scanStep]

theorem scanStep_quote (q : Bool) : scanStep (q, false) '"' = (!q, false) := by
  simp [scanStep]

theorem scanStep_plain (c : Char) (q : Bool) (h1 : c ≠ '\\') (h2 : c ≠ '"') :
    scanStep (q, false) c = (q, false) := by
  simp [scanStep, h1, h2]

theorem joinChars_cons (sep : Char) (x : List Char) (l : List (List Char)) (h : l ≠ []) :
    joinChars sep (x :: l) = x ++ sep :: joinChars sep l := by
  match l with
  | [] => exact absurd rfl h
  | y :: rest => rfl

theorem getLastD_of_ne_nil {α : Type} (l : List α) (d1 d2 : α) (h : l ≠ []) :
    l.getLastD d1 = l.getLastD d2 := by
  match l with
  | [] => exact absurd rfl h
  | x :: rest => rw [List.getLastD_cons, List.getLastD_cons]

theorem splitAux_join (sep : Char) (cs : List Char) :
    ∀ (buf : List Char) (q e : Bool),
      joinChars sep (splitAux sep cs buf q e) = buf ++ cs := by
  induction cs with
  | nil => intro buf q e; simp [splitAux, joinChars]
  | cons c cs ih =>
    intro buf q e
    by_cases he : e = true
    · subst he
      rw [splitAux_cons_esc, ih]
      simp
    · rw [Bool.not_eq_true] at he
      subst he
      by_cases hbs : c = '\\'
      · subst hbs
        rw [splitAux_cons_bs, ih]
        simp
      · by_cases hq : c = '"'
        · subst hq
          rw [splitAux_cons_quote, ih]
          simp
        · by_cases hsep : q = false ∧ c = sep
          · obtain ⟨hq', hc⟩ := hsep
            subst hq'
            subst hc
            rw [splitAux_cons_sep _ _ _ (fun h => hbs h) (fun h => hq h)]
            rw [joinChars_cons _ _ _ (splitAux_ne_nil _ _ _ _ _), ih]
            simp
          · have h3 : q = true ∨ c ≠ sep := by
              by_cases hq' : q
              · exact Or.inl hq'
              · exact Or.inr (fun hc => hsep ⟨by simpa using hq', hc⟩)
            rw [splitAux_cons_plain _ _ _ _ _ hbs hq h3, ih]
            simp

theorem splitAux_append (sep : Char) (xs : List Char) :
    ∀ (ys buf : List Char) (q e : Bool),
      splitAux sep (xs ++ ys) buf q e =
        (splitAux sep xs buf q e).dropLast ++
          splitAux sep ys ((splitAux sep xs buf q e).getLastD [])
            (scanChars xs (q, e)).1 (scanChars xs (q, e)).2 := by
  induction xs with
  | nil => intro ys buf q e; simp [splitAux, scanChars]
  | cons c xs ih =>
    intro ys buf q e
    rw [List.cons_append, scanChars_cons]
    by_cases he : e = true
    · subst he
      rw [splitAux_cons_esc, splitAux_cons_esc, ih, scanStep_esc]
    · rw [Bool.not_eq_true] at he
      subst he
      by_cases hbs : c = '\\'
      · subst hbs
        rw [splitAux_cons_bs, splitAux_cons_bs, ih, scanStep_bs]
      · by_cases hq : c = '"'
        · subst hq
          rw [splitAux_cons_quote, splitAux_cons_quote, ih, scanStep_quote]
        · by_cases hsep : q = false ∧ c = sep
          · obtain ⟨hq', hc⟩ := hsep
            subst hq'
            subst hc
            rw [splitAux_cons_sep _ _ _ (fun h => hbs h) (fun h => hq h),
                splitAux_cons_sep _ _ _ (fun h => hbs h) (fun h => hq h), ih,
                scanStep_plain _ _ hbs hq]
            have hne := splitAux_ne_nil c xs ([] : List Char) false false
            rw [List.dropLast_cons_of_ne_nil hne, List.getLastD_cons]
            rw [getLastD_of_ne_nil (splitAux c xs ([] : List Char) false false) buf
              ([] : List Char) hne]
            simp
          · have h3 : q = true ∨ c ≠ sep := by
              by_cases hq' : q
              · exact Or.inl hq'
              · exact Or.inr (fun hc => hsep ⟨by simpa using hq', hc⟩)
            rw [splitAux_cons_plain _ _ _ _ _ hbs hq h3,
                splitAux_cons_plain _ _ _ _ _ hbs hq h3, ih,
                scanStep_plain _ _ hbs hq]

theorem splitAux_inquote_swallow (sep : Char) (r : List Char) :
    ∀ (buf : List Char), (∀ c ∈ r, c ≠ '"' ∧ c ≠ '\\') →
      splitAux sep r buf true false = [buf ++ r] := by
  induction r with
  | nil => intro buf _; simp [splitAux]
  | cons c r ih =>
    intro buf h
    obtain ⟨hq, hbs⟩ := h c (by simp)
    rw [splitAux_cons_plain _ _ _ _ _ hbs hq (Or.inl rfl)]
    rw [ih _ (fun c hc => h c (by simp [hc]))]
    simp

/-- C8: the tokenizer is total and emits exactly (number of effective
separators) + 1 fields, where "effective" means unescaped and outside
double-quote state; and on an input whose scan ends inside an
unterminated quote, the remaining characters (separators included) are
swallowed into the last field, so those separators do not delimit. -/
theorem c8_tokenizer_field_count (s : String) (sep : Char)
    (p r : String)
    (hp : scanChars p.data (false, false) = (true, false))
    (hr : ∀ c ∈ r.data, c ≠ '"' ∧ c ≠ '\\') :
    (splitOutsideQuotes s sep).length = countEffSep sep s.data (false, false) + 1 ∧
    splitOutsideQuotes (p ++ r) sep =
      (splitOutsideQuotes p sep).dropLast ++
        [(splitOutsideQuotes p sep).getLastD "" ++ r] := by
  constructor
  · simp [splitOutsideQuotes, splitAux_length]
  · simp only [splitOutsideQuotes, String.data_append]
    rw [splitAux_append, hp]
    rw [splitAux_inquote_swallow _ _ _ hr]
    rw [List.map_append]
    congr 1
    · exact List.map_dropLast _ _
    · simp only [List.map_cons, List.map_nil]
      congr 1
      have h1 : (splitAux sep p.data [] false false).map
          (fun l => (⟨l⟩ : String)) ≠ [] := by
        simp [splitAux_ne_nil]
      have h2 : ((splitAux sep p.data [] false false).map
          (fun l => (⟨l⟩ : String))).getLastD "" =
          (⟨(splitAux sep p.data [] false false).getLastD []⟩ : String) := by
        rw [List.getLastD_eq_getLast?, List.getLast?_map, List.getLastD_eq_getLast?]
        cases hcase : (splitAux sep p.data [] false false).getLast? with
        | none =>
          exact absurd (List.getLast?_eq_none_iff.mp hcase) (splitAux_ne_nil _ _ _ _ _)
        | some v => simp
      rw [h2]
      apply String.ext
      simp

/-- Witness for C8 at a concrete input: `"a;\"b" ++ ";c"` with
separator `;` — the scan of `a;"b` ends inside a quote, and the `;` of
the remainder does not delimit. -/
theorem c8_tokenizer_field_count_witness :
    scanChars ("a;\"b" : String).data (false, false) = (true, false) ∧
    (∀ c ∈ (";c" : String).data, c ≠ '"' ∧ c ≠ '\\') ∧
    ((splitOutsideQuotes "a;\"b;c" ';').length =
        countEffSep ';' ("a;\"b;c" : String).data (false, false) + 1 ∧
      splitOutsideQuotes ("a;\"b" ++ ";c") ';' =
        (splitOutsideQuotes "a;\"b" ';').dropLast ++
          [(splitOutsideQuotes "a;\"b" ';').getLastD "" ++ ";c"]) :=
  ⟨by decide, by decide,
    c8_tokenizer_field_count "a;\"b;c" ';' "a;\"b" ";c" (by decide) (by decide)⟩

/-- C9: splitting never loses or invents characters: the fields,
re-joined with the separator, reconstruct the input exactly (and the
field list is never empty). -/
theorem c9_tokenizer_join_inverse (s : String) (sep : Char) :
    splitOutsideQuotes s sep ≠ [] ∧ joinWith sep (splitOutsideQuotes s sep) = s := by
  constructor
  · simp [splitOutsideQuotes, splitAux_ne_nil]
  · apply String.ext
    simp only [joinWith, splitOutsideQuotes, List.map_map]
    have hid : ((fun s => String.data s) ∘ (fun l : List Char => (⟨l⟩ : String))) = id := rfl
    rw [hid, List.map_id, splitAux_join]
    simp

/-! ### Encoder lemmas -/

theorem encodeRowsAux_cons_some (k : String) (v : SupportedValue)
    (rest : List (String × EncodableValue)) :
    encodeRowsAux ((k, some v) :: rest) =
      (encodeValue (inferAlias v) k v).bind
        (fun ev => (encodeRowsAux rest).map
          (fun rows => (k ++ ";" ++ aliasStr (inferAlias v) ++ ";" ++ ev) :: rows)) := by
  show (encodeValue (inferAlias v) k v).bind _ = _
  cases hev : encodeValue (inferAlias v) k v with
  | error e => simp [Bind.bind, Except.bind]
  | ok ev =>
    cases hr : encodeRowsAux rest <;> simp [Bind.bind, Except.bind, Except.map]

theorem encodeRowsAux_append (l1 l2 : List (String × EncodableValue)) :
    encodeRowsAux (l1 ++ l2) =
      (encodeRowsAux l1).bind
        (fun a => (encodeRowsAux l2).map (fun b => a ++ b)) := by
  induction l1 with
  | nil =>
    simp only [List.nil_append, encodeRowsAux]
    cases h2 : encodeRowsAux l2 <;> simp [Except.bind, Except.map]
  | cons p l1 ih =>
    obtain ⟨k, ov⟩ := p
    cases ov with
    | none => simpa [encodeRowsAux] using ih
    | some v =>
      rw [List.cons_append, encodeRowsAux_cons_some, encodeRowsAux_cons_some, ih]
      cases hev : encodeValue (inferAlias v) k v <;>
        cases h1 : encodeRowsAux l1 <;> cases h2 : encodeRowsAux l2 <;>
          simp [Except.bind, Except.map]

theorem rowString_n (k : String) :
    (k ++ ";" ++ "n" ++ ";" ++ "" : String) = k ++ ";n;" := by
  apply String.ext
  simp [String.data_append]

theorem rowString_x (k : String) :
    (k ++ ";" ++ "x" ++ ";" ++ "" : String) = k ++ ";x;" := by
  apply String.ext
  simp [String.data_append]

/-- C5: encode edge-state policy, field by field.  An `undefined` field
contributes no row at all; a non-finite number field contributes
exactly the row `k;n;` (alias `n`, empty raw text); an explicit-null
field contributes exactly the row `k;x;`; and none of the three states
makes `encode` fail (witnessed on the one-field records). -/
theorem c5_encode_edge_policy (pre post : List (String × EncodableValue)) (k : String) :
    (encodeRowsAux (pre ++ (k, (none : EncodableValue)) :: post) =
      encodeRowsAux (pre ++ post)) ∧
    (∀ nf : JSNum, nf = .nan ∨ nf = .posInf ∨ nf = .negInf →
      encodeRowsAux (pre ++ (k, some (.num nf)) :: post) =
        (encodeRowsAux pre).bind
          (fun a => (encodeRowsAux post).map (fun b => a ++ (k ++ ";n;") :: b))) ∧
    (encodeRowsAux (pre ++ (k, some .null) :: post) =
      (encodeRowsAux pre).bind
        (fun a => (encodeRowsAux post).map (fun b => a ++ (k ++ ";x;") :: b))) ∧
    encode [(k, (none : EncodableValue))] = .ok "" ∧
    encode [(k, some (.num .nan))] = .ok (k ++ ";n;") ∧
    encode [(k, some .null)] = .ok (k ++ ";x;") := by
  refine ⟨?_, ?_, ?_, ?_, ?_, ?_⟩
  · rw [encodeRowsAux_append, encodeRowsAux_append]
    have hstep : encodeRowsAux ((k, (none : EncodableValue)) :: post) =
        encodeRowsAux post := by
      simp [encodeRowsAux]
    rw [hstep]
  · intro nf hnf
    have hval : encodeValue (inferAlias (.num nf)) k (.num nf) = .ok "" := by
      rcases hnf with h | h | h <;> subst h <;> rfl
    rw [encodeRowsAux_append, encodeRowsAux_cons_some, hval]
    have hrow : (k ++ ";" ++ aliasStr (inferAlias (SupportedValue.num nf)) ++ ";" ++ "") =
        k ++ ";n;" := by
      rw [show inferAlias (SupportedValue.num nf) = .n from rfl]
      exact rowString_n k
    simp only [Except.bind, hrow]
    cases h1 : encodeRowsAux pre <;> cases h2 : encodeRowsAux post <;>
      simp [Except.bind, Except.map]
  · rw [encodeRowsAux_append]
    have hstep : encodeRowsAux ((k, some SupportedValue.null) :: post) =
        (encodeRowsAux post).map (fun rows => (k ++ ";x;") :: rows) := by
      rw [encodeRowsAux_cons_some]
      rw [show encodeValue (inferAlias SupportedValue.null) k SupportedValue.null =
        .ok "" from rfl]
      simp only [Except.bind,
        show (k ++ ";" ++ aliasStr (inferAlias SupportedValue.null) ++ ";" ++ "") =
          k ++ ";x;" from rowString_x k]
    rw [hstep]
    cases h1 : encodeRowsAux pre <;> cases h2 : encodeRowsAux post <;>
      simp [Except.bind, Except.map]
  · rfl
  · show Except.ok (joinWith '|' [k ++ ";" ++ "n" ++ ";" ++ ""]) = _
    rw [rowString_n]
    rfl
  · show Except.ok (joinWith '|' [k ++ ";" ++ "x" ++ ";" ++ ""]) = _
    rw [rowString_x]
    rfl

/-- Witness for C5 at a concrete record: the non-finite branch with
`-Infinity` between two other fields. -/
theorem c5_encode_edge_policy_witness :
    encodeRowsAux ([("p", some (.boolean true))] ++
        ("k", some (.num .negInf)) :: [("q", some .null)]) =
      (encodeRowsAux [("p", some (.boolean true))]).bind
        (fun a => (encodeRowsAux [("q", some (.null : SupportedValue))]).map
          (fun b => a ++ ("k" ++ ";n;") :: b)) :=
  (c5_encode_edge_policy [("p", some (.boolean true))] [("q", some .null)] "k").2.1
    .negInf (Or.inr (Or.inr rfl))

/-! ### Schema-validator lemmas -/

theorem schemaLoopAux_cons_absent_opt (raw : List (String × SupportedValue))
    (k : String) (sv : SchemaValue) (S : List (String × SchemaValue))
    (hl : lookupKey raw k = none) (hopt : (normalizeSchemaValue sv).2 = true) :
    schemaLoopAux raw ((k, sv) :: S) =
      (schemaLoopAux raw S).map (fun o => (k, none) :: o) := by
  simp only [schemaLoopAux]
  rw [hl]
  simp [hopt]

theorem schemaLoopAux_cons_absent_req (raw : List (String × SupportedValue))
    (k : String) (sv : SchemaValue) (S : List (String × SchemaValue))
    (hl : lookupKey raw k = none) (hopt : (normalizeSchemaValue sv).2 = false) :
    schemaLoopAux raw ((k, sv) :: S) =
      .error ("Missing required key \"" ++ k ++ "\"") := by
  simp only [schemaLoopAux]
  rw [hl]
  simp [hopt]

theorem schemaLoopAux_cons_present_match (raw : List (String × SupportedValue))
    (k : String) (sv : SchemaValue) (S : List (String × SchemaValue))
    (val : SupportedValue) (hl : lookupKey raw k = some val)
    (hal : inferAlias val = (normalizeSchemaValue sv).1) :
    schemaLoopAux raw ((k, sv) :: S) =
      (schemaLoopAux raw S).map (fun o => (k, some val) :: o) := by
  simp only [schemaLoopAux]
  rw [hl]
  simp [hal]

theorem schemaLoopAux_cons_present_mismatch (raw : List (String × SupportedValue))
    (k : String) (sv : SchemaValue) (S : List (String × SchemaValue))
    (val : SupportedValue) (hl : lookupKey raw k = some val)
    (hal : inferAlias val ≠ (normalizeSchemaValue sv).1) :
    schemaLoopAux raw ((k, sv) :: S) =
      .error ("Type mismatch for \"" ++ k ++ "\": expected " ++
        aliasStr (normalizeSchemaValue sv).1 ++ " but got " ++
        aliasStr (inferAlias val)) := by
  simp only [schemaLoopAux]
  rw [hl]
  simp [hal]

theorem schemaLoopAux_append (raw : List (String × SupportedValue))
    (l1 l2 : List (String × SchemaValue)) :
    schemaLoopAux raw (l1 ++ l2) =
      (schemaLoopAux raw l1).bind
        (fun a => (schemaLoopAux raw l2).map (fun b => a ++ b)) := by
  induction l1 with
  | nil =>
    simp only [List.nil_append, schemaLoopAux]
    cases h2 : schemaLoopAux raw l2 <;> simp [Except.bind, Except.map]
  | cons p l1 ih =>
    obtain ⟨k, sv⟩ := p
    rw [List.cons_append]
    cases hl : lookupKey raw k with
    | none =>
      cases hopt : (normalizeSchemaValue sv).2 with
      | true =>
        rw [schemaLoopAux_cons_absent_opt raw k sv _ hl hopt,
            schemaLoopAux_cons_absent_opt raw k sv _ hl hopt, ih]
        cases h1 : schemaLoopAux raw l1 <;> cases h2 : schemaLoopAux raw l2 <;>
          simp [Except.bind, Except.map]
      | false =>
        rw [schemaLoopAux_cons_absent_req raw k sv _ hl hopt,
            schemaLoopAux_cons_absent_req raw k sv _ hl hopt]
        simp [Except.bind]
    | some val =>
      by_cases hal : inferAlias val = (normalizeSchemaValue sv).1
      · rw [schemaLoopAux_cons_present_match raw k sv _ val hl hal,
            schemaLoopAux_cons_present_match raw k sv _ val hl hal, ih]
        cases h1 : schemaLoopAux raw l1 <;> cases h2 : schemaLoopAux raw l2 <;>
          simp [Except.bind, Except.map]
      · rw [schemaLoopAux_cons_present_mismatch raw k sv _ val hl hal,
            schemaLoopAux_cons_present_mismatch raw k sv _ val hl hal]
        simp [Except.bind]

theorem schemaLoopAux_keys (raw : List (String × SupportedValue)) :
    ∀ (S : List (String × SchemaValue)) (out : List (String × Option SupportedValue)),
      schemaLoopAux raw S = .ok out → out.map Prod.fst = S.map Prod.fst := by
  intro S
  induction S with
  | nil => intro out h; simp [schemaLoopAux] at h; simp [← h]
  | cons p S ih =>
    intro out h
    obtain ⟨k, sv⟩ := p
    cases hl : lookupKey raw k with
    | none =>
      cases hopt : (normalizeSchemaValue sv).2 with
      | true =>
        rw [schemaLoopAux_cons_absent_opt raw k sv _ hl hopt] at h
        cases hrec : schemaLoopAux raw S with
        | error e => rw [hrec] at h; simp [Except.map] at h
        | ok o =>
          rw [hrec] at h
          simp [Except.map] at h
          subst h
          simp [ih o hrec]
      | false =>
        rw [schemaLoopAux_cons_absent_req raw k sv _ hl hopt] at h
        simp at h
    | some val =>
      by_cases hal : inferAlias val = (normalizeSchemaValue sv).1
      · rw [schemaLoopAux_cons_present_match raw k sv _ val hl hal] at h
        cases hrec : schemaLoopAux raw S with
        | error e => rw [hrec] at h; simp [Except.map] at h
        | ok o =>
          rw [hrec] at h
          simp [Except.map] at h
          subst h
          simp [ih o hrec]
      · rw [schemaLoopAux_cons_present_mismatch raw k sv _ val hl hal] at h
        simp at h

/-- C7: schema field policy.  For a schema field `k` absent from the
decoded record: if declared optional, the result carries `k` mapped to
the `undefined` marker (in schema position); if required, the loop
fails with a `Missing required key` error naming `k` (as soon as the
fields before it succeed).  On success the result's keys are exactly
the schema's keys — decoded fields not declared in the schema are
projected away.  The spec's own example
`decodeWithSchema(encode({a:1}), {a:'n', b:{type:'s', optional:true}})`
returns `{a: 1, b: undefined}` without throwing. -/
theorem c7_schema_field_policy (raw : List (String × SupportedValue))
    (pre post : List (String × SchemaValue)) (k : String) (sv : SchemaValue)
    (habs : lookupKey raw k = none) :
    ((normalizeSchemaValue sv).2 = true →
      schemaLoopAux raw (pre ++ (k, sv) :: post) =
        (schemaLoopAux raw pre).bind
          (fun a => (schemaLoopAux raw post).map (fun b => a ++ (k, none) :: b))) ∧
    ((normalizeSchemaValue sv).2 = false →
      ∀ a, schemaLoopAux raw pre = .ok a →
        schemaLoopAux raw (pre ++ (k, sv) :: post) =
          .error ("Missing required key \"" ++ k ++ "\"")) ∧
    (∀ S out, schemaLoopAux raw S = .ok out → out.map Prod.fst = S.map Prod.fst) ∧
    encode [("a", some (.num (.fin 1)))] = .ok "a;n;1" ∧
    decodeWithSchema "a;n;1" [("a", .bare .n), ("b", .withOpt .s true)] =
      .ok [("a", some (.num (.fin 1))), ("b", none)] := by
  refine ⟨?_, ?_, schemaLoopAux_keys raw, ?_, ?_⟩
  · intro hopt
    rw [schemaLoopAux_append, schemaLoopAux_cons_absent_opt raw k sv _ habs hopt]
    cases h1 : schemaLoopAux raw pre <;> cases h2 : schemaLoopAux raw post <;>
      simp [Except.bind, Except.map]
  · intro hopt a ha
    rw [schemaLoopAux_append, schemaLoopAux_cons_absent_req raw k sv _ habs hopt, ha]
    simp [Except.bind, Except.map]
  · show Except.ok (joinWith '|' ["a" ++ ";" ++ "n" ++ ";" ++ "1"]) = _
    rfl
  · rfl

/-- Witness for C7: the required-absent branch at the empty record with
the one-field schema `{c: 's'}`. -/
theorem c7_schema_field_policy_witness :
    schemaLoopAux [] ([] ++ ("c", SchemaValue.bare .s) :: []) =
      .error ("Missing required key \"" ++ "c" ++ "\"") :=
  (c7_schema_field_policy [] [] [] "c" (.bare .s) rfl).2.1 rfl [] rfl

theorem find?_map_setKey_other {β : Type} (acc : List (String × β)) (k k' : String)
    (v : β) (h : ¬k' = k) :
    (acc.map (fun p => if p.1 = k then (k, v) else p)).find? (fun p => p.1 = k') =
      acc.find? (fun p => p.1 = k') := by
  induction acc with
  | nil => rfl
  | cons p acc ih =>
    by_cases hp : p.1 = k
    · have hp' : ¬(p.1 = k') := by rw [hp]; exact fun hh => h hh.symm
      simp only [List.map_cons, hp, ite_true]
      rw [List.find?_cons_of_neg _ (by simp; exact fun hh => h hh.symm),
          List.find?_cons_of_neg _ (by simpa using hp')]
      exact ih
    · simp only [List.map_cons, hp, ite_false]
      by_cases hd : p.1 = k'
      · rw [List.find?_cons_of_pos _ (by simpa using hd),
            List.find?_cons_of_pos _ (by simpa using hd)]
      · rw [List.find?_cons_of_neg _ (by simpa using hd),
            List.find?_cons_of_neg _ (by simpa using hd)]
        exact ih

theorem lookupKey_eq_none_of_not_any {β : Type} (acc : List (String × β)) (k : String)
    (hany : acc.any (fun p => p.1 = k) = false) : lookupKey acc k = none := by
  have hf : List.find? (fun p => decide (p.1 = k)) acc = none := by
    rw [List.find?_eq_none]
    intro p hp
    simp only [decide_eq_true_eq]
    intro hpk
    rw [List.any_eq_false] at hany
    exact absurd (by simpa using hpk) (hany p hp)
  unfold lookupKey
  rw [hf]
  rfl

theorem lookupKey_map_setKey_self {β : Type} (acc : List (String × β)) (k : String)
    (v : β) (hany : acc.any (fun p => p.1 = k) = true) :
    lookupKey (acc.map (fun p => if p.1 = k then (k, v) else p)) k = some v := by
  induction acc with
  | nil => simp at hany
  | cons q acc ih =>
    by_cases hq : q.1 = k
    · simp only [List.map_cons, hq, ite_true]
      unfold lookupKey
      rw [List.find?_cons_of_pos _ (by simp)]
      simp
    · simp only [List.map_cons, hq, ite_false]
      unfold lookupKey
      rw [List.find?_cons_of_neg _ (by simpa using hq)]
      have hany2 : acc.any (fun p => p.1 = k) = true := by
        rw [List.any_cons] at hany
        simpa [hq] using hany
      exact ih hany2

theorem lookupKey_append {β : Type} (l1 l2 : List (String × β)) (k : String)
    (h : lookupKey l1 k = none) : lookupKey (l1 ++ l2) k = lookupKey l2 k := by
  unfold lookupKey at h ⊢
  rw [List.find?_append]
  cases hf : l1.find? (fun p => p.1 = k) with
  | some p => rw [hf] at h; simp at h
  | none => simp

theorem lookupKey_setKey {β : Type} (acc : List (String × β)) (k k' : String) (v : β) :
    lookupKey (setKey acc k v) k' = if k' = k then some v else lookupKey acc k' := by
  by_cases h : k' = k
  · subst h
    rw [if_pos rfl]
    unfold setKey
    cases hany : acc.any (fun p => p.1 = k') with
    | true =>
      rw [if_pos rfl]
      exact lookupKey_map_setKey_self acc k' v hany
    | false =>
      rw [if_neg (by simp [hany])]
      rw [lookupKey_append _ _ _ (lookupKey_eq_none_of_not_any acc k' hany)]
      unfold lookupKey
      rw [List.find?_cons_of_pos _ (by simp)]
      simp
  · rw [if_neg h]
    unfold setKey
    cases hany : acc.any (fun p => p.1 = k) with
    | true =>
      rw [if_pos rfl]
      unfold lookupKey
      rw [find?_map_setKey_other acc k k' v h]
    | false =>
      rw [if_neg (by simp [hany])]
      unfold lookupKey
      rw [List.find?_append]
      cases hf : acc.find? (fun p => p.1 = k') with
      | some p => simp
      | none =>
        simp only [Option.none_or]
        rw [List.find?_cons_of_neg _ (by simp; exact fun hh => h hh.symm)]
        simp [List.find?]

theorem decodeRowsAux_last (rows : List String) :
    ∀ acc, (∀ row ∈ rows, isOkE (parseRow row) = true) →
      ∃ m, decodeRowsAux rows acc = .ok m ∧
        ∀ k, lookupKey m k =
          match lastValueFor k rows with
          | some v => some v
          | none => lookupKey acc k := by
  induction rows with
  | nil =>
    intro acc _
    exact ⟨acc, rfl, fun k => by simp [lastValueFor]⟩
  | cons row rest ih =>
    intro acc h
    have hrow := h row (by simp)
    cases hp : parseRow row with
    | error e => rw [hp] at hrow; simp [isOkE] at hrow
    | ok p =>
      obtain ⟨k0, v0⟩ := p
      obtain ⟨m, hm, hlook⟩ := ih (setKey acc k0 v0)
        (fun r hr => h r (by simp [hr]))
      refine ⟨m, ?_, ?_⟩
      · simp only [decodeRowsAux, hp]
        exact hm
      · intro k
        rw [hlook k]
        simp only [lastValueFor, hp]
        cases hlast : lastValueFor k rest with
        | some v => simp
        | none =>
          simp only []
          rw [lookupKey_setKey]
          by_cases hk : k0 = k
          · subst hk
            simp
          · have hk' : ¬(k = k0) := fun hh => hk hh.symm
            simp [hk, hk']

/-- C10: duplicate keys do not make `decode` fail; when every row of
the document parses, `decode` succeeds and the result maps each key to
the parsed value of the *last* row with that (trimmed) key, in document
order — later rows overwrite earlier ones. -/
theorem c10_duplicate_keys_last_wins (str : String)
    (h : ∀ row ∈ docRows str, isOkE (parseRow row) = true) :
    ∃ m, decode str = .ok m ∧ ∀ k, lookupKey m k = lastValueFor k (docRows str) := by
  obtain ⟨m, hm, hlook⟩ := decodeRowsAux_last (docRows str) [] h
  refine ⟨m, hm, fun k => ?_⟩
  rw [hlook k]
  cases hlast : lastValueFor k (docRows str) <;> simp [lookupKey]

/-- Witness for C10: the two-row document `a;n;1|a;n;2` decodes, and a
direct computation confirms the decoded record maps `a` to `2` (the
last row's value). -/
theorem c10_duplicate_keys_last_wins_witness :
    (∀ row ∈ docRows "a;n;1|a;n;2", isOkE (parseRow row) = true) ∧
    (∃ m, decode "a;n;1|a;n;2" = .ok m ∧
      ∀ k, lookupKey m k = lastValueFor k (docRows "a;n;1|a;n;2")) ∧
    decode "a;n;1|a;n;2" = .ok [("a", .num (.fin 2))] :=
  ⟨by decide, c10_duplicate_keys_last_wins "a;n;1|a;n;2" (by decide), by rfl⟩

theorem rowBad_eq_isErr_parseRow (row : String) :
    rowBad row = isErr (parseRow row) := by
  unfold rowBad parseRow
  cases h : splitOutsideQuotes row ';' with
  | nil => rfl
  | cons a t =>
    cases t with
    | nil => rfl
    | cons b t2 =>
      cases t2 with
      | nil => rfl
      | cons c t3 =>
        cases t3 with
        | cons d t4 => rfl
        | nil =>
          simp only []
          by_cases hkey : trimS a = ""
          · simp [hkey, isErr]
          · simp only [hkey, ite_false]
            cases hal : aliasOfString (trimS b) with
            | none => simp [isErr]
            | some al =>
              cases al with
              | s =>
                simp only [aliasParse]
                by_cases hq : (trimS c).data.head? = some '"' ∧
                    (trimS c).data.getLast? = some '"'
                · rw [if_pos hq]
                  cases hj : junquoteS (trimS c) with
                  | none => simp [hq, hj, isErr]
                  | some s => simp [hq, hj, isErr]
                · rw [if_neg hq]
                  simp [hq, isErr]
              | n =>
                simp only [aliasParse]
                by_cases he : trimS c = ""
                · simp [he, isErr]
                · rw [if_neg he]
                  cases hn : jsNumberParse (trimS c).data <;> simp [isErr]
              | b =>
                simp only [aliasParse]
                by_cases ht : lowerS (trimS c) = "true"
                · simp [ht, isErr]
                · by_cases hf : lowerS (trimS c) = "false"
                  · simp [ht, hf, isErr]
                  · simp [ht, hf, isErr]
              | d =>
                simp only [aliasParse]
                by_cases hq : (trimS c).data.head? = some '"' ∧
                    (trimS c).data.getLast? = some '"'
                · rw [if_pos hq]
                  cases hj : junquoteS (trimS c) with
                  | none => simp [isErr]
                  | some s =>
                    cases hp : parseISOChars s.data <;> simp [isErr, hp]
                · rw [if_neg hq]
                  cases hp : parseISOChars (trimS c).data <;> simp [isErr, hp]
              | x => simp [aliasParse, isErr]

theorem decodeRowsAux_isErr (rows : List String) :
    ∀ acc, isErr (decodeRowsAux rows acc) =
      rows.any (fun row => isErr (parseRow row)) := by
  induction rows with
  | nil => intro acc; simp [decodeRowsAux, isErr]
  | cons row rest ih =>
    intro acc
    cases hp : parseRow row with
    | error e => simp [decodeRowsAux, hp, isErr]
    | ok p =>
      obtain ⟨k0, v0⟩ := p
      have hstep : decodeRowsAux (row :: rest) acc = decodeRowsAux rest (setKey acc k0 v0) := by
        simp [decodeRowsAux, hp]
      rw [hstep, ih, List.any_cons]
      simp [isErr, hp]

/-- C6 (amended): after splitting on `|` and dropping empty rows,
`decode` fails if and only if some row violates the structural
conditions in `rowBad` — i.e. the claim's list (row shape, empty key,
unknown alias, invalid boolean/date) *plus* a malformed quoted string
under alias `s`; a single bad row makes the whole decode return an
error (no partial result), and the two-field row `a;s` is rejected with
the row-shape error. -/
theorem c6_decode_error_conditions (str : String) :
    (isErr (decode str) = (docRows str).any rowBad) ∧
    decode "a;s" = .error "Invalid row (expected 3 parts): a;s" := by
  constructor
  · unfold decode
    rw [decodeRowsAux_isErr]
    congr 1
    funext row
    exact (rowBad_eq_isErr_parseRow row).symm
  · rfl

/-- Counterexample to C6 as stated: the document `a;s;"` (one row,
three fields, key `a`, known alias `s`, raw text a single double-quote)
fails to decode — `JSON.parse` throws on the malformed string literal —
yet none of the claim's listed conditions holds for the row, so the
claimed "if and only if" is false at this input. -/
theorem c6_decode_error_conditions_counterexample :
    ¬(isErr (decode "a;s;\"") = true ↔
      (docRows "a;s;\"").any claimRowBad = true) := by
  decide

/-! ### Order lemmas for the sort comparator -/

theorem lexLeN_trans : ∀ a b c : List Nat,
    lexLeN a b = true → lexLeN b c = true → lexLeN a c = true := by
  intro a
  induction a with
  | nil => intro b c _ _; rfl
  | cons x xs ih =>
    intro b c hab hbc
    cases b with
    | nil => simp [lexLeN] at hab
    | cons y ys =>
      cases c with
      | nil => simp [lexLeN] at hbc
      | cons z zs =>
        simp only [lexLeN] at hab hbc ⊢
        by_cases hxy : x < y
        · by_cases hyz : y < z
          · rw [if_pos (by omega)]
          · simp only [hyz, ite_false] at hbc
            by_cases hyz' : y = z
            · rw [if_pos (by omega)]
            · simp [hyz'] at hbc
        · simp only [hxy, ite_false] at hab
          by_cases hxy' : x = y
          · subst hxy'
            simp only [ite_true] at hab
            by_cases hyz : x < z
            · rw [if_pos hyz]
            · simp only [hyz, ite_false] at hbc ⊢
              by_cases hyz' : x = z
              · simp only [hyz', ite_true] at hbc ⊢
                exact ih _ _ hab hbc
              · simp [hyz'] at hbc
          · simp [hxy'] at hab

theorem lexLeN_total : ∀ a b : List Nat, lexLeN a b = true ∨ lexLeN b a = true := by
  intro a
  induction a with
  | nil => intro b; left; rfl
  | cons x xs ih =>
    intro b
    cases b with
    | nil => right; rfl
    | cons y ys =>
      simp only [lexLeN]
      by_cases hxy : x < y
      · left; rw [if_pos hxy]
      · by_cases hyx : y < x
        · right; rw [if_pos hyx]
        · have hxy' : x = y := by omega
          subst hxy'
          simp only [hxy, ite_false, ite_true, lt_self_iff_false]
          exact ih ys

theorem lexLeN_antisymm : ∀ a b : List Nat,
    lexLeN a b = true → lexLeN b a = true → a = b := by
  intro a
  induction a with
  | nil =>
    intro b _ hba
    cases b with
    | nil => rfl
    | cons y ys => simp [lexLeN] at hba
  | cons x xs ih =>
    intro b hab hba
    cases b with
    | nil => simp [lexLeN] at hab
    | cons y ys =>
      simp only [lexLeN] at hab hba
      by_cases hxy : x < y
      · exfalso
        rw [if_neg (by omega : ¬y < x), if_neg (by omega : ¬y = x)] at hba
        simp at hba
      · by_cases hyx : y < x
        · exfalso
          rw [if_neg (by omega : ¬x < y), if_neg (by omega : ¬x = y)] at hab
          simp at hab
        · have hxy' : x = y := by omega
          subst hxy'
          simp only [lt_self_iff_false, ite_false, ite_true] at hab hba
          rw [ih ys hab hba]

theorem char_valid_nat (c : Char) :
    c.toNat < 55296 ∨ (57343 < c.toNat ∧ c.toNat < 1114112) := c.valid

theorem charEq_of_toNat {c1 c2 : Char} (h : c1.toNat = c2.toNat) : c1 = c2 :=
  Char.ext (UInt32.ext h)

theorem utf16Units_bmp (c : Char) (h : c.toNat < 65536) : utf16Units c = [c.toNat] := by
  simp [utf16Units, h]

theorem utf16Units_supp (c : Char) (h : ¬c.toNat < 65536) :
    utf16Units c = [55296 + (c.toNat - 65536) / 1024, 56320 + (c.toNat - 65536) % 1024] := by
  simp [utf16Units, h]

theorem utf16Enc_inj : ∀ l1 l2 : List Char, utf16Enc l1 = utf16Enc l2 → l1 = l2 := by
  intro l1
  induction l1 with
  | nil =>
    intro l2 h
    cases l2 with
    | nil => rfl
    | cons c2 t2 =>
      exfalso
      simp only [utf16Enc] at h
      by_cases h2 : c2.toNat < 65536
      · rw [utf16Units_bmp c2 h2] at h; simp at h
      · rw [utf16Units_supp c2 h2] at h; simp at h
  | cons c1 t1 ih =>
    intro l2 h
    cases l2 with
    | nil =>
      exfalso
      simp only [utf16Enc] at h
      by_cases h1 : c1.toNat < 65536
      · rw [utf16Units_bmp c1 h1] at h; simp at h
      · rw [utf16Units_supp c1 h1] at h; simp at h
    | cons c2 t2 =>
      simp only [utf16Enc] at h
      by_cases h1 : c1.toNat < 65536 <;> by_cases h2 : c2.toNat < 65536
      · rw [utf16Units_bmp c1 h1, utf16Units_bmp c2 h2] at h
        simp only [List.cons_append, List.nil_append, List.cons.injEq] at h
        rw [charEq_of_toNat h.1, ih t2 h.2]
      · rw [utf16Units_bmp c1 h1, utf16Units_supp c2 h2] at h
        simp only [List.cons_append, List.nil_append, List.cons.injEq] at h
        exfalso
        have hv1 := char_valid_nat c1
        have hv2 := char_valid_nat c2
        omega
      · rw [utf16Units_supp c1 h1, utf16Units_bmp c2 h2] at h
        simp only [List.cons_append, List.nil_append, List.cons.injEq] at h
        exfalso
        have hv1 := char_valid_nat c1
        have hv2 := char_valid_nat c2
        omega
      · rw [utf16Units_supp c1 h1, utf16Units_supp c2 h2] at h
        simp only [List.cons_append, List.nil_append, List.cons.injEq] at h
        obtain ⟨hhi, hlo, htl⟩ := h
        have hv1 := char_valid_nat c1
        have hv2 := char_valid_nat c2
        have heq : c1.toNat = c2.toNat := by omega
        rw [charEq_of_toNat heq, ih t2 htl]

theorem utf16Le_trans (a b c : String) (hab : utf16Le a b = true) (hbc : utf16Le b c = true) :
    utf16Le a c = true :=
  lexLeN_trans _ _ _ hab hbc

theorem utf16Le_total (a b : String) : utf16Le a b = true ∨ utf16Le b a = true :=
  lexLeN_total _ _

theorem utf16Le_antisymm (a b : String) (hab : utf16Le a b = true)
    (hba : utf16Le b a = true) : a = b :=
  String.ext (utf16Enc_inj _ _ (lexLeN_antisymm _ _ hab hba))

/-! ### Insertion-sort lemmas -/

theorem insertByLe_perm {α : Type} (le : α → α → Bool) (a : α) :
    ∀ l : List α, (insertByLe le a l).Perm (a :: l) := by
  intro l
  induction l with
  | nil => simp [insertByLe]
  | cons b bs ih =>
    simp only [insertByLe]
    by_cases h : le a b
    · rw [if_pos h]
    · rw [if_neg h]
      exact ((ih.cons b).trans (List.Perm.swap a b bs))

theorem sortByLe_perm {α : Type} (le : α → α → Bool) :
    ∀ l : List α, (sortByLe le l).Perm l := by
  intro l
  induction l with
  | nil => simp [sortByLe]
  | cons a l ih =>
    show (insertByLe le a (sortByLe le l)).Perm (a :: l)
    exact (insertByLe_perm le a _).trans (ih.cons a)

theorem mem_insertByLe {α : Type} (le : α → α → Bool) (a x : α) (l : List α) :
    x ∈ insertByLe le a l ↔ x = a ∨ x ∈ l :=
  ⟨fun h => by
    rcases List.mem_cons.mp ((insertByLe_perm le a l).mem_iff.mp h) with h' | h'
    · exact Or.inl h'
    · exact Or.inr h',
   fun h => (insertByLe_perm le a l).mem_iff.mpr (by
    rcases h with h | h
    · simp [h]
    · simp [h])⟩

theorem insertByLe_sorted {α : Type} (le : α → α → Bool)
    (htotal : ∀ a b : α, le a b = true ∨ le b a = true)
    (htrans : ∀ a b c : α, le a b = true → le b c = true → le a c = true)
    (a : α) :
    ∀ l : List α, l.Pairwise (fun x y => le x y = true) →
      (insertByLe le a l).Pairwise (fun x y => le x y = true) := by
  intro l
  induction l with
  | nil => intro _; simp [insertByLe]
  | cons b bs ih =>
    intro hp
    rw [List.pairwise_cons] at hp
    obtain ⟨hb, hbs⟩ := hp
    simp only [insertByLe]
    by_cases h : le a b
    · rw [if_pos h]
      rw [List.pairwise_cons]
      refine ⟨?_, List.pairwise_cons.mpr ⟨hb, hbs⟩⟩
      intro x hx
      rcases List.mem_cons.mp hx with rfl | hx'
      · exact h
      · exact htrans a b x h (hb x hx')
    · rw [if_neg h]
      rw [List.pairwise_cons]
      refine ⟨?_, ih hbs⟩
      intro x hx
      rcases (mem_insertByLe le a x bs).mp hx with heq | hx'
      · rw [heq]
        rcases htotal a b with h' | h'
        · exact absurd h' h
        · exact h'
      · exact hb x hx'

theorem sortByLe_sorted {α : Type} (le : α → α → Bool)
    (htotal : ∀ a b : α, le a b = true ∨ le b a = true)
    (htrans : ∀ a b c : α, le a b = true → le b c = true → le a c = true) :
    ∀ l : List α, (sortByLe le l).Pairwise (fun x y => le x y = true) := by
  intro l
  induction l with
  | nil => simp [sortByLe]
  | cons a l ih =>
    exact insertByLe_sorted le htotal htrans a _ ih

theorem eq_of_perm_sorted_nodup {α β : Type} (le : α → α → Bool) (f : α → β)
    (hanti : ∀ a b : α, le a b = true → le b a = true → f a = f b) :
    ∀ l1 l2 : List α, l1.Perm l2 →
      l1.Pairwise (fun x y => le x y = true) →
      l2.Pairwise (fun x y => le x y = true) →
      (l1.map f).Nodup → l1 = l2 := by
  intro l1
  induction l1 with
  | nil =>
    intro l2 hperm _ _ _
    exact (List.Perm.nil_eq hperm).symm ▸ rfl
  | cons a t1 ih =>
    intro l2 hperm hp1 hp2 hnd
    cases l2 with
    | nil => exact absurd hperm.symm (by simp)
    | cons b t2 =>
      by_cases hab : a = b
      · subst hab
        have hperm' := hperm.cons_inv
        rw [List.pairwise_cons] at hp1 hp2
        rw [List.map_cons, List.nodup_cons] at hnd
        rw [ih t2 hperm' hp1.2 hp2.2 hnd.2]
      · exfalso
        have hb1 : b ∈ t1 := by
          have : b ∈ a :: t1 := hperm.symm.subset (by simp)
          rcases List.mem_cons.mp this with h | h
          · exact absurd h.symm hab
          · exact h
        have ha2 : a ∈ t2 := by
          have : a ∈ b :: t2 := hperm.subset (by simp)
          rcases List.mem_cons.mp this with h | h
          · exact absurd h hab
          · exact h
        have hab1 : le a b = true := (List.pairwise_cons.mp hp1).1 b hb1
        have hba1 : le b a = true := (List.pairwise_cons.mp hp2).1 a ha2
        have hfab : f a = f b := hanti a b hab1 hba1
        rw [List.map_cons, List.nodup_cons] at hnd
        exact hnd.1 (hfab ▸ List.mem_map_of_mem f hb1)

/-- C3 (amended): determinism — two records with the same key/value
pairs in any insertion orders encode byte-identically — and the rows of
the output appear sorted by key in the UTF-16 code-unit lexicographic
order that `Array.prototype.sort`'s default comparator uses (which
coincides with code-point order unless keys mix supplementary-plane
characters with upper-BMP characters). -/
theorem c3_encode_determinism (r1 r2 : List (String × EncodableValue))
    (hperm : r1.Perm r2) (hnodup : (r1.map Prod.fst).Nodup) :
    encode r1 = encode r2 ∧
    List.Pairwise (fun a b => utf16Le a b = true) ((sortByKey r1).map Prod.fst) := by
  have htotal : ∀ p q : String × EncodableValue,
      (utf16Le p.1 q.1) = true ∨ (utf16Le q.1 p.1) = true :=
    fun p q => utf16Le_total p.1 q.1
  have htrans : ∀ p q r : String × EncodableValue,
      utf16Le p.1 q.1 = true → utf16Le q.1 r.1 = true → utf16Le p.1 r.1 = true :=
    fun p q r => utf16Le_trans p.1 q.1 r.1
  have hanti : ∀ p q : String × EncodableValue,
      utf16Le p.1 q.1 = true → utf16Le q.1 p.1 = true → p.1 = q.1 :=
    fun p q => utf16Le_antisymm p.1 q.1
  have hsorted1 := sortByLe_sorted (fun p q : String × EncodableValue => utf16Le p.1 q.1)
    htotal htrans r1
  have hsorted2 := sortByLe_sorted (fun p q : String × EncodableValue => utf16Le p.1 q.1)
    htotal htrans r2
  have hpermsort : (sortByLe (fun p q : String × EncodableValue => utf16Le p.1 q.1) r1).Perm
      (sortByLe (fun p q : String × EncodableValue => utf16Le p.1 q.1) r2) :=
    ((sortByLe_perm _ r1).trans hperm).trans (sortByLe_perm _ r2).symm
  have hnodup1 : ((sortByLe (fun p q : String × EncodableValue => utf16Le p.1 q.1) r1).map
      Prod.fst).Nodup :=
    (((sortByLe_perm _ r1).map Prod.fst).symm.nodup hnodup)
  have hsort_eq : sortByKey r1 = sortByKey r2 :=
    eq_of_perm_sorted_nodup _ Prod.fst hanti _ _ hpermsort hsorted1 hsorted2 hnodup1
  constructor
  · unfold encode
    rw [show sortByKey r1 = sortByKey r2 from hsort_eq]
  · exact List.Pairwise.map Prod.fst (fun a b h => h) hsorted1

/-- Witness for C3: two concrete two-field records with reversed
insertion order encode identically, and the sorted keys are in UTF-16
order. -/
theorem c3_encode_determinism_witness :
    encode [("b", some SupportedValue.null), ("a", some (SupportedValue.num (JSNum.fin 1)))] =
      encode [("a", some (SupportedValue.num (JSNum.fin 1))), ("b", some SupportedValue.null)] ∧
    List.Pairwise (fun a b => utf16Le a b = true)
      ((sortByKey [("b", some SupportedValue.null), ("a", some (SupportedValue.num (JSNum.fin 1)))]).map Prod.fst) :=
  c3_encode_determinism _ _
    (List.Perm.swap ("a", some (SupportedValue.num (JSNum.fin 1))) ("b", some SupportedValue.null) [])
    (by decide)

/-- Counterexample to C3 as stated: with the keys U+FF61 (halfwidth
ideographic full stop, a BMP character with a high code unit) and
U+10000 (a supplementary-plane character encoded as a surrogate pair),
the encoder puts the U+10000 row first — `sort()` compares UTF-16 code
units, and 0xD800 < 0xFF61 — although code-point order puts U+FF61
first; the emitted keys are not sorted in code-point order. -/
theorem c3_encode_determinism_counterexample :
    (sortByKey [(String.singleton (Char.ofNat 0xFF61), some (SupportedValue.num (JSNum.fin 1))),
        (String.singleton (Char.ofNat 0x10000), some (SupportedValue.num (JSNum.fin 2)))]).map Prod.fst =
      [String.singleton (Char.ofNat 0x10000), String.singleton (Char.ofNat 0xFF61)] ∧
    encode [(String.singleton (Char.ofNat 0xFF61), some (SupportedValue.num (JSNum.fin 1))),
        (String.singleton (Char.ofNat 0x10000), some (SupportedValue.num (JSNum.fin 2)))] =
      .ok (String.singleton (Char.ofNat 0x10000) ++ ";n;2|" ++
        String.singleton (Char.ofNat 0xFF61) ++ ";n;1") ∧
    ¬List.Pairwise (fun a b => specCodePointLe a b = true)
      ((sortByKey [(String.singleton (Char.ofNat 0xFF61), some (SupportedValue.num (JSNum.fin 1))),
        (String.singleton (Char.ofNat 0x10000), some (SupportedValue.num (JSNum.fin 2)))]).map Prod.fst) := by
  refine ⟨by decide, ?_, by decide⟩
  rfl

/-! ### Digit and number round-trip lemmas -/

theorem isWsB_toNat (c : Char) (h : isWsB c = true) :
    c.toNat = 32 ∨ c.toNat = 9 ∨ c.toNat = 10 ∨ c.toNat = 13 ∨ c.toNat = 11 ∨
    c.toNat = 12 ∨ c.toNat = 160 ∨ c.toNat = 65279 ∨ c.toNat = 8232 ∨ c.toNat = 8233 := by
  simp only [isWsB, wsChars, decide_eq_true_eq, List.mem_cons,
    List.not_mem_nil, or_false] at h
  rcases h with h | h | h | h | h | h | h | h | h | h <;> subst h <;> decide

theorem isDigitB_toNat (c : Char) : isDigitB c = true ↔ 48 ≤ c.toNat ∧ c.toNat ≤ 57 := by
  simp [isDigitB]

theorem isDigitB_digitChar (n : Nat) : isDigitB (digitChar n) = true := by
  rw [isDigitB_toNat, toNat_digitChar]
  have := Nat.mod_lt n (y := 10) (by omega)
  omega

theorem charToDigit_digitChar (n : Nat) (h : n < 10) : charToDigit (digitChar n) = n := by
  simp [charToDigit, toNat_digitChar, Nat.mod_eq_of_lt h]

theorem isWsB_digitChar (n : Nat) : isWsB (digitChar n) = false := by
  cases h : isWsB (digitChar n)
  · rfl
  · exfalso
    have h2 := isWsB_toNat _ h
    rw [toNat_digitChar] at h2
    have := Nat.mod_lt n (y := 10) (by omega)
    omega

theorem digitChar_ne (n : Nat) (c : Char) (hc : c.toNat < 48 ∨ 57 < c.toNat) :
    digitChar n ≠ c := by
  intro h
  have := toNat_digitChar n
  rw [h] at this
  have := Nat.mod_lt n (y := 10) (by omega)
  omega

theorem natDigitsAux_fuel (f1 : Nat) :
    ∀ (f2 n : Nat), n < f1 → n < f2 → natDigitsAux f1 n = natDigitsAux f2 n := by
  induction f1 with
  | zero => intro f2 n h1 _; omega
  | succ f1 ih =>
    intro f2 n h1 h2
    cases f2 with
    | zero => omega
    | succ f2 =>
      simp only [natDigitsAux]
      by_cases h : n < 10
      · simp [h]
      · rw [if_neg h, if_neg h]
        have hd : n / 10 < n := Nat.div_lt_self (by omega) (by omega)
        rw [ih f2 (n / 10) (by omega) (by omega)]

theorem natDigits_unfold (n : Nat) :
    natDigits n =
      if n < 10 then [digitChar n] else natDigits (n / 10) ++ [digitChar (n % 10)] := by
  have step : natDigitsAux (n + 1) n =
      if n < 10 then [digitChar n] else natDigitsAux n (n / 10) ++ [digitChar (n % 10)] := rfl
  unfold natDigits
  rw [step]
  by_cases h : n < 10
  · simp [h]
  · rw [if_neg h, if_neg h]
    have hd : n / 10 < n := Nat.div_lt_self (by omega) (by omega)
    congr 1
    exact natDigitsAux_fuel n (n / 10 + 1) (n / 10) (by omega) (by omega)

theorem natDigits_ne_nil (n : Nat) : natDigits n ≠ [] := by
  rw [natDigits_unfold]
  by_cases h : n < 10 <;> simp [h]

theorem natDigits_all_digits (n : Nat) : (natDigits n).all isDigitB = true := by
  induction n using Nat.strong_induction_on with
  | _ n ih =>
    rw [natDigits_unfold]
    by_cases h : n < 10
    · simp [h, isDigitB_digitChar]
    · rw [if_neg h]
      have hd : n / 10 < n := Nat.div_lt_self (by omega) (by omega)
      simp [List.all_append, ih (n / 10) hd, isDigitB_digitChar]

theorem digitsVal_natDigits (n : Nat) :
    ∀ acc, (natDigits n).foldl (fun a c => a * 10 + charToDigit c) acc =
      acc * 10 ^ (natDigits n).length + n := by
  induction n using Nat.strong_induction_on with
  | _ n ih =>
    intro acc
    rw [natDigits_unfold]
    by_cases h : n < 10
    · simp [h, List.foldl, charToDigit_digitChar n h]
    · rw [if_neg h]
      have hd : n / 10 < n := Nat.div_lt_self (by omega) (by omega)
      rw [List.foldl_append, ih (n / 10) hd acc]
      simp only [List.foldl, List.length_append, List.length_cons, List.length_nil]
      rw [charToDigit_digitChar (n % 10) (Nat.mod_lt n (by omega))]
      rw [pow_succ]
      have hn := Nat.div_add_mod n 10
      ring_nf
      omega

theorem parseNatAll_natDigits (n : Nat) : parseNatAll (natDigits n) = some n := by
  unfold parseNatAll
  rw [if_pos ⟨natDigits_ne_nil n, natDigits_all_digits n⟩]
  unfold digitsVal
  rw [digitsVal_natDigits n 0]
  simp

theorem intToDecString_data (i : Int) :
    (intToDecString i).data =
      if i < 0 then '-' :: natDigits i.natAbs else natDigits i.natAbs := by
  unfold intToDecString
  by_cases h : i < 0 <;> simp [h]

theorem jsNumberParse_cons (c : Char) (rest : List Char) :
    jsNumberParse (c :: rest) =
      if c = '-' then
        match parseNatAll rest with
        | some n => .fin (-(n : Int))
        | none => .nan
      else if c = '+' then
        match parseNatAll rest with
        | some n => .fin (n : Int)
        | none => .nan
      else
        match parseNatAll (c :: rest) with
        | some n => .fin (n : Int)
        | none => .nan := rfl

theorem jsNumberParse_intToDecString (i : Int) :
    jsNumberParse (intToDecString i).data = .fin i := by
  rw [intToDecString_data]
  by_cases h : i < 0
  · rw [if_pos h, jsNumberParse_cons, if_pos rfl, parseNatAll_natDigits]
    have hn : (i.natAbs : Int) = -i := by omega
    simp [hn]
  · rw [if_neg h]
    cases hnd : natDigits i.natAbs with
    | nil => exact absurd hnd (natDigits_ne_nil _)
    | cons c cs =>
      have hc : isDigitB c = true := by
        have hall := natDigits_all_digits i.natAbs
        rw [hnd] at hall
        simp [List.all_cons] at hall
        exact hall.1
      rw [isDigitB_toNat] at hc
      rw [jsNumberParse_cons,
          if_neg (by intro hcm; rw [hcm] at hc; revert hc; decide),
          if_neg (by intro hcm; rw [hcm] at hc; revert hc; decide),
          ← hnd, parseNatAll_natDigits]
      have hn : (i.natAbs : Int) = i := by omega
      simp [hn]

theorem trimChars_id (l : List Char)
    (h1 : ∀ c, l.head? = some c → isWsB c = false)
    (h2 : ∀ c, l.getLast? = some c → isWsB c = false) :
    trimChars l = l := by
  unfold trimChars
  have hfst : l.dropWhile isWsB = l := by
    cases l with
    | nil => rfl
    | cons c cs =>
      rw [List.dropWhile_cons, if_neg]
      rw [h1 c rfl]
      simp
  rw [hfst]
  have hlast : l.reverse.dropWhile isWsB = l.reverse := by
    cases hr : l.reverse with
    | nil => rfl
    | cons c cs =>
      rw [List.dropWhile_cons, if_neg]
      have : l.getLast? = some c := by
        rw [List.getLast?_eq_head?_reverse, hr]
        rfl
      rw [h2 c this]
      simp
  rw [hlast, List.reverse_reverse]

theorem trimS_id (s : String)
    (h1 : ∀ c, s.data.head? = some c → isWsB c = false)
    (h2 : ∀ c, s.data.getLast? = some c → isWsB c = false) :
    trimS s = s := by
  unfold trimS
  apply String.ext
  show trimChars s.data = s.data
  exact trimChars_id s.data h1 h2

theorem natDigits_not_ws (i : Int) (c : Char) (hmem : c ∈ natDigits i.natAbs) :
    isWsB c = false := by
  have hall := natDigits_all_digits i.natAbs
  rw [List.all_eq_true] at hall
  have hd := hall c hmem
  rw [isDigitB_toNat] at hd
  cases hw : isWsB c
  · rfl
  · exact absurd (isWsB_toNat c hw) (by omega)

theorem trimS_intToDecString (i : Int) : trimS (intToDecString i) = intToDecString i := by
  apply trimS_id
  · intro c hc
    rw [intToDecString_data] at hc
    by_cases h : i < 0
    · rw [if_pos h] at hc
      simp at hc
      subst hc
      decide
    · rw [if_neg h] at hc
      cases hnd : natDigits i.natAbs with
      | nil => exact absurd hnd (natDigits_ne_nil _)
      | cons d ds =>
        rw [hnd] at hc
        simp only [List.head?_cons, Option.some.injEq] at hc
        subst hc
        exact natDigits_not_ws i _ (by rw [hnd]; exact List.mem_cons_self _ _)
  · intro c hc
    rw [intToDecString_data] at hc
    have hmem : c ∈ natDigits i.natAbs := by
      by_cases h : i < 0
      · rw [if_pos h, List.getLast?_cons] at hc
        cases hl : (natDigits i.natAbs).getLast? with
        | none => exact absurd (List.getLast?_eq_none_iff.mp hl) (natDigits_ne_nil _)
        | some d =>
          rw [hl] at hc
          simp at hc
          subst hc
          exact List.mem_of_mem_getLast? hl
      · rw [if_neg h] at hc
        exact List.mem_of_mem_getLast? hc
    exact natDigits_not_ws i c hmem

/-! ### JSON string literal round-trip -/

theorem charOfNat_toNat (c : Char) : Char.ofNat c.toNat = c :=
  charEq_of_toNat (toNat_charOfNat_valid c.toNat c.valid)

theorem hexVal_hexDigitChar : ∀ m < 16, hexVal (hexDigitChar m) = some m := by
  decide

theorem junb_esc_quote (rest : List Char) :
    junquoteBody ('\\' :: '"' :: rest) = (junquoteBody rest).map (fun tl => '"' :: tl) := by
  conv_lhs => rw [junquoteBody.eq_def]
  rfl

theorem junb_esc_bs (rest : List Char) :
    junquoteBody ('\\' :: '\\' :: rest) = (junquoteBody rest).map (fun tl => '\\' :: tl) := by
  conv_lhs => rw [junquoteBody.eq_def]
  rfl

theorem junb_esc_b (rest : List Char) :
    junquoteBody ('\\' :: 'b' :: rest) =
      (junquoteBody rest).map (fun tl => Char.ofNat 8 :: tl) := by
  conv_lhs => rw [junquoteBody.eq_def]
  rfl

theorem junb_esc_t (rest : List Char) :
    junquoteBody ('\\' :: 't' :: rest) =
      (junquoteBody rest).map (fun tl => Char.ofNat 9 :: tl) := by
  conv_lhs => rw [junquoteBody.eq_def]
  rfl

theorem junb_esc_n (rest : List Char) :
    junquoteBody ('\\' :: 'n' :: rest) =
      (junquoteBody rest).map (fun tl => Char.ofNat 10 :: tl) := by
  conv_lhs => rw [junquoteBody.eq_def]
  rfl

theorem junb_esc_f (rest : List Char) :
    junquoteBody ('\\' :: 'f' :: rest) =
      (junquoteBody rest).map (fun tl => Char.ofNat 12 :: tl) := by
  conv_lhs => rw [junquoteBody.eq_def]
  rfl

theorem junb_esc_r (rest : List Char) :
    junquoteBody ('\\' :: 'r' :: rest) =
      (junquoteBody rest).map (fun tl => Char.ofNat 13 :: tl) := by
  conv_lhs => rw [junquoteBody.eq_def]
  rfl

theorem junb_u_small (a b c d : Char) (rest : List Char) (v : Nat)
    (hv : hex4 a b c d = some v) (hsmall : v < 55296) :
    junquoteBody ('\\' :: 'u' :: a :: b :: c :: d :: rest) =
      (junquoteBody rest).map (fun tl => Char.ofNat v :: tl) := by
  conv_lhs => rw [junquoteBody.eq_def]
  show (match hex4 a b c d with
    | none => none
    | some v =>
      if v < 55296 ∨ 57343 < v then
        (junquoteBody rest).map (fun tl => Char.ofNat v :: tl)
      else none) = _
  rw [hv]
  show (if v < 55296 ∨ 57343 < v then
      (junquoteBody rest).map (fun tl => Char.ofNat v :: tl)
    else none) = _
  rw [if_pos (Or.inl hsmall)]

theorem junb_plain (c : Char) (rest : List Char) (h1 : ¬c = '"') (h2 : ¬c = '\\')
    (h3 : ¬c.toNat < 32) :
    junquoteBody (c :: rest) = (junquoteBody rest).map (fun tl => c :: tl) := by
  conv_lhs => rw [junquoteBody.eq_def]
  show (if c = '"' then (if rest = [] then some [] else none)
    else if c = '\\' then
      match rest with
      | [] => none
      | e :: rest2 =>
        if e = 'u' then
          match rest2 with
          | h1 :: h2 :: h3 :: h4 :: rest3 =>
            match hex4 h1 h2 h3 h4 with
            | none => none
            | some v =>
              if v < 55296 ∨ 57343 < v then
                (junquoteBody rest3).map (fun tl => Char.ofNat v :: tl)
              else none
          | _ => none
        else
          match jsonSimpleEscape e with
          | none => none
          | some ch => (junquoteBody rest2).map (fun tl => ch :: tl)
    else if c.toNat < 32 then none
    else (junquoteBody rest).map (fun tl => c :: tl)) = _
  rw [if_neg h1, if_neg h2, if_neg h3]

theorem junquoteBody_quoteBody (l : List Char) :
    junquoteBody (jsonQuoteBody l ++ ['"']) = some l := by
  induction l with
  | nil => rfl
  | cons c cs ih =>
    have hexp : jsonQuoteBody (c :: cs) ++ ['"'] =
        jsonQuoteChar c ++ (jsonQuoteBody cs ++ ['"']) := by
      simp [jsonQuoteBody, List.append_assoc]
    rw [hexp]
    unfold jsonQuoteChar
    by_cases h1 : c = '"'
    · subst h1
      rw [if_pos rfl]
      show junquoteBody ('\\' :: '"' :: (jsonQuoteBody cs ++ ['"'])) = _
      rw [junb_esc_quote, ih]
      rfl
    · rw [if_neg h1]
      by_cases h2 : c = '\\'
      · subst h2
        rw [if_pos rfl]
        show junquoteBody ('\\' :: '\\' :: (jsonQuoteBody cs ++ ['"'])) = _
        rw [junb_esc_bs, ih]
        rfl
      · rw [if_neg h2]
        by_cases h3 : c.toNat = 8
        · rw [if_pos h3]
          show junquoteBody ('\\' :: 'b' :: (jsonQuoteBody cs ++ ['"'])) = _
          rw [junb_esc_b, ih, show Char.ofNat 8 = c from h3 ▸ charOfNat_toNat c]
          rfl
        · rw [if_neg h3]
          by_cases h4 : c.toNat = 9
          · rw [if_pos h4]
            show junquoteBody ('\\' :: 't' :: (jsonQuoteBody cs ++ ['"'])) = _
            rw [junb_esc_t, ih, show Char.ofNat 9 = c from h4 ▸ charOfNat_toNat c]
            rfl
          · rw [if_neg h4]
            by_cases h5 : c.toNat = 10
            · rw [if_pos h5]
              show junquoteBody ('\\' :: 'n' :: (jsonQuoteBody cs ++ ['"'])) = _
              rw [junb_esc_n, ih, show Char.ofNat 10 = c from h5 ▸ charOfNat_toNat c]
              rfl
            · rw [if_neg h5]
              by_cases h6 : c.toNat = 12
              · rw [if_pos h6]
                show junquoteBody ('\\' :: 'f' :: (jsonQuoteBody cs ++ ['"'])) = _
                rw [junb_esc_f, ih, show Char.ofNat 12 = c from h6 ▸ charOfNat_toNat c]
                rfl
              · rw [if_neg h6]
                by_cases h7 : c.toNat = 13
                · rw [if_pos h7]
                  show junquoteBody ('\\' :: 'r' :: (jsonQuoteBody cs ++ ['"'])) = _
                  rw [junb_esc_r, ih, show Char.ofNat 13 = c from h7 ▸ charOfNat_toNat c]
                  rfl
                · rw [if_neg h7]
                  by_cases h8 : c.toNat < 32
                  · rw [if_pos h8]
                    show junquoteBody ('\\' :: 'u' :: '0' :: '0' ::
                      hexDigitChar (c.toNat / 16) :: hexDigitChar (c.toNat % 16) ::
                      (jsonQuoteBody cs ++ ['"'])) = _
                    have hh3 : hexVal (hexDigitChar (c.toNat / 16)) =
                        some (c.toNat / 16) := by
                      apply hexVal_hexDigitChar
                      omega
                    have hh4 : hexVal (hexDigitChar (c.toNat % 16)) =
                        some (c.toNat % 16) := by
                      apply hexVal_hexDigitChar
                      omega
                    have hhex : hex4 '0' '0' (hexDigitChar (c.toNat / 16))
                        (hexDigitChar (c.toNat % 16)) = some c.toNat := by
                      unfold hex4
                      rw [show hexVal '0' = some 0 from rfl, hh3, hh4]
                      simp only [Option.bind_eq_bind, Option.some_bind, Option.some.injEq]
                      omega
                    rw [junb_u_small _ _ _ _ _ c.toNat hhex (by
                      rcases char_valid_nat c with hv | hv <;> omega)]
                    rw [ih, charOfNat_toNat]
                    rfl
                  · rw [if_neg h8]
                    show junquoteBody (c :: (jsonQuoteBody cs ++ ['"'])) = _
                    rw [junb_plain c _ h1 h2 h8, ih]
                    rfl

theorem junquoteChars_quote (l : List Char) :
    junquoteChars (jsonQuoteChars l) = some l := by
  show junquoteBody (jsonQuoteBody l ++ ['"']) = some l
  exact junquoteBody_quoteBody l

theorem junquoteS_jsonQuoteS (s : String) : junquoteS (jsonQuoteS s) = some s := by
  unfold junquoteS jsonQuoteS
  rw [show (⟨jsonQuoteChars s.data⟩ : String).data = jsonQuoteChars s.data from rfl]
  rw [junquoteChars_quote]
  rfl

/-! ### ISO date round-trip -/

theorem parseFixedAux_pad (k : Nat) :
    ∀ (n acc : Nat) (rest : List Char), n < 10 ^ k →
      parseFixedAux k (padDigits k n ++ rest) acc = some (acc * 10 ^ k + n, rest) := by
  induction k with
  | zero =>
    intro n acc rest h
    simp only [pow_zero] at h
    have : n = 0 := by omega
    subst this
    simp [padDigits, parseFixedAux]
  | succ k ih =>
    intro n acc rest h
    show parseFixedAux (k + 1) (digitChar (n / 10 ^ k) :: (padDigits k (n % 10 ^ k) ++ rest))
      acc = _
    have hdiv : n / 10 ^ k < 10 := by
      rw [Nat.div_lt_iff_lt_mul (by positivity)]
      calc n < 10 ^ (k + 1) := h
      _ = 10 * 10 ^ k := by ring
      _ ≤ 10 * 10 ^ k := le_refl _
    show (if isDigitB (digitChar (n / 10 ^ k)) then
        parseFixedAux k (padDigits k (n % 10 ^ k) ++ rest)
          (acc * 10 + charToDigit (digitChar (n / 10 ^ k)))
      else none) = _
    rw [if_pos (isDigitB_digitChar _), charToDigit_digitChar _ hdiv,
      ih (n % 10 ^ k) _ rest (Nat.mod_lt _ (by positivity))]
    have hn := Nat.div_add_mod n (10 ^ k)
    rw [Option.some.injEq, Prod.mk.injEq]
    constructor
    · rw [pow_succ]
      nlinarith [hn]
    · rfl

theorem parseFixed_pad {k n : Nat} (h : n < 10 ^ k) (rest : List Char) :
    parseFixed k (padDigits k n ++ rest) = some (n, rest) := by
  unfold parseFixed
  rw [parseFixedAux_pad k n 0 rest h]
  simp

theorem expectChar_cons (c : Char) (rest : List Char) :
    expectChar c (c :: rest) = some rest := by
  simp [expectChar]

theorem daysInMonth_le (y : Int) (m : Nat) : daysInMonth y m ≤ 31 := by
  unfold daysInMonth
  split <;> first | omega | (split <;> omega)

theorem validDate_bounds (d : JSDate) (hv : validDate d = true) :
    -271820 ≤ d.year ∧ d.year ≤ 275759 ∧ 1 ≤ d.month ∧ d.month ≤ 12 ∧
    1 ≤ d.day ∧ d.day ≤ 31 ∧ d.hour ≤ 23 ∧ d.minute ≤ 59 ∧ d.second ≤ 59 ∧
    d.milli ≤ 999 := by
  unfold validDate at hv
  simp only [Bool.and_eq_true, decide_eq_true_eq] at hv
  have hd := daysInMonth_le d.year d.month
  omega

set_option maxHeartbeats 1000000 in
theorem parseISOTail_format (d : JSDate) (hv : validDate d = true) :
    parseISOTail d.year ('-' :: padDigits 2 d.month ++ '-' :: padDigits 2 d.day ++
      'T' :: padDigits 2 d.hour ++ ':' :: padDigits 2 d.minute ++
      ':' :: padDigits 2 d.second ++ '.' :: padDigits 3 d.milli ++ ['Z']) = some d := by
  obtain ⟨_, _, _, hmo, _, hda, hho, hmi, hse, hms⟩ := validDate_bounds d hv
  have hmo2 : d.month < 10 ^ 2 := by omega
  have hda2 : d.day < 10 ^ 2 := by omega
  have hho2 : d.hour < 10 ^ 2 := by omega
  have hmi2 : d.minute < 10 ^ 2 := by omega
  have hse2 : d.second < 10 ^ 2 := by omega
  have hms3 : d.milli < 10 ^ 3 := by omega
  unfold parseISOTail
  simp only [expectChar_cons, Option.bind_eq_bind, Option.some_bind,
    List.append_assoc, List.cons_append]
  rw [parseFixed_pad hmo2]
  simp only [Option.some_bind, expectChar_cons]
  rw [parseFixed_pad hda2]
  simp only [Option.some_bind, expectChar_cons]
  rw [parseFixed_pad hho2]
  simp only [Option.some_bind, expectChar_cons]
  rw [parseFixed_pad hmi2]
  simp only [Option.some_bind, expectChar_cons]
  rw [parseFixed_pad hse2]
  simp only [Option.some_bind, expectChar_cons]
  rw [parseFixed_pad hms3]
  simp only [Option.some_bind, expectChar_cons]
  show (if validDate d = true then some d else none) = some d
  simp [hv]

theorem parseISOChars_cons_eq (c : Char) (cs : List Char) :
    parseISOChars (c :: cs) =
      if c = '+' then (parseFixed 6 cs).bind (fun p => parseISOTail (Int.ofNat p.1) p.2)
      else if c = '-' then
        (parseFixed 6 cs).bind (fun p => parseISOTail (-(Int.ofNat p.1)) p.2)
      else (parseFixed 4 (c :: cs)).bind (fun p => parseISOTail (Int.ofNat p.1) p.2) := rfl

theorem padDigits_succ_append (k n : Nat) (rest : List Char) :
    padDigits (k + 1) n ++ rest =
      digitChar (n / 10 ^ k) :: (padDigits k (n % 10 ^ k) ++ rest) := rfl

theorem padDigits4_cons (n : Nat) (rest : List Char) :
    padDigits 4 n ++ rest = digitChar (n / 1000) :: (padDigits 3 (n % 1000) ++ rest) := rfl

theorem padDigits6_cons (n : Nat) (rest : List Char) :
    padDigits 6 n ++ rest = digitChar (n / 100000) :: (padDigits 5 (n % 100000) ++ rest) := rfl

theorem parseISOChars_format (d : JSDate) (hv : validDate d = true) :
    parseISOChars (formatISOChars d) = some d := by
  obtain ⟨hy1, hy2, _, _, _, _, _, _, _, _⟩ := validDate_bounds d hv
  have hiso := parseISOTail_format d hv
  unfold formatISOChars yearChars
  simp only [List.append_assoc, List.cons_append]
  by_cases hy : 0 ≤ d.year ∧ d.year ≤ 9999
  · rw [if_pos hy]
    have hy4 : d.year.toNat < 10 ^ 4 := by omega
    rw [padDigits4_cons, parseISOChars_cons_eq,
      if_neg (digitChar_ne _ '+' (Or.inl (by decide))),
      if_neg (digitChar_ne _ '-' (Or.inl (by decide))),
      ← padDigits4_cons, parseFixed_pad hy4]
    simp only [Option.bind_eq_bind, Option.some_bind]
    rw [show Int.ofNat d.year.toNat = d.year from by rw [Int.ofNat_eq_coe]; omega]
    convert hiso using 2
  · rw [if_neg hy]
    have habs : d.year.natAbs < 10 ^ 6 := by
      have h6 : (10 : Nat) ^ 6 = 1000000 := by norm_num
      omega
    by_cases hneg : d.year < 0
    · rw [if_pos hneg, List.cons_append, parseISOChars_cons_eq,
        if_neg (by decide), if_pos rfl, parseFixed_pad habs]
      simp only [Option.bind_eq_bind, Option.some_bind]
      rw [show -(Int.ofNat d.year.natAbs) = d.year from by rw [Int.ofNat_eq_coe]; omega]
      convert hiso using 2
    · rw [if_neg hneg, List.cons_append, parseISOChars_cons_eq, if_pos rfl,
        parseFixed_pad habs]
      simp only [Option.bind_eq_bind, Option.some_bind]
      rw [show Int.ofNat d.year.natAbs = d.year from by rw [Int.ofNat_eq_coe]; omega]
      convert hiso using 2

/-! ### Scan facts for encoder-produced fields -/

theorem scanChars_append (l1 l2 : List Char) (st : Bool × Bool) :
    scanChars (l1 ++ l2) st = scanChars l2 (scanChars l1 st) :=
  List.foldl_append _ _ _ _

theorem countEffSep_append (sep : Char) (l1 : List Char) :
    ∀ (l2 : List Char) (st : Bool × Bool),
      countEffSep sep (l1 ++ l2) st =
        countEffSep sep l1 st + countEffSep sep l2 (scanChars l1 st) := by
  induction l1 with
  | nil => intro l2 st; simp [countEffSep, scanChars]
  | cons c l1 ih =>
    intro l2 st
    rw [show (c :: l1) ++ l2 = c :: (l1 ++ l2) from rfl]
    show (if isEffSep sep st c then 1 else 0) + countEffSep sep (l1 ++ l2) (scanStep st c) = _
    rw [ih, scanChars_cons]
    show _ = (if isEffSep sep st c then 1 else 0) + countEffSep sep l1 (scanStep st c) +
      countEffSep sep l2 (scanChars l1 (scanStep st c))
    omega

theorem scan_plain (sep : Char) (l : List Char)
    (h : ∀ c ∈ l, ¬c = '"' ∧ ¬c = '\\' ∧ ¬c = sep) :
    scanChars l (false, false) = (false, false) ∧
    countEffSep sep l (false, false) = 0 := by
  induction l with
  | nil => exact ⟨rfl, rfl⟩
  | cons c cs ih =>
    obtain ⟨h1, h2, h3⟩ := h c (by simp)
    have hrest := ih (fun c hc => h c (by simp [hc]))
    rw [scanChars_cons, scanStep_plain c false h2 h1]
    refine ⟨hrest.1, ?_⟩
    simp only [countEffSep, scanStep_plain c false h2 h1]
    rw [hrest.2]
    simp [isEffSep, h3]

theorem scan_inquote_plain (sep : Char) (l : List Char)
    (h : ∀ c ∈ l, ¬c = '"' ∧ ¬c = '\\') :
    scanChars l (true, false) = (true, false) ∧
    countEffSep sep l (true, false) = 0 := by
  induction l with
  | nil => exact ⟨rfl, rfl⟩
  | cons c cs ih =>
    obtain ⟨h1, h2⟩ := h c (by simp)
    have hrest := ih (fun c hc => h c (by simp [hc]))
    rw [scanChars_cons, scanStep_plain c true h2 h1]
    refine ⟨hrest.1, ?_⟩
    simp only [countEffSep, scanStep_plain c true h2 h1]
    rw [hrest.2]
    simp [isEffSep]

theorem hexDigitChar_toNat (m : Nat) :
    (48 ≤ (hexDigitChar m).toNat ∧ (hexDigitChar m).toNat ≤ 57) ∨
    (97 ≤ (hexDigitChar m).toNat ∧ (hexDigitChar m).toNat ≤ 102) := by
  unfold hexDigitChar
  by_cases h : m % 16 < 10
  · rw [if_pos h]
    left
    rw [toNat_digitChar]
    have := Nat.mod_lt m (y := 10) (by omega)
    omega
  · rw [if_neg h]
    right
    have hm : m % 16 < 16 := Nat.mod_lt _ (by omega)
    rw [toNat_charOfNat_valid _ (Or.inl (by omega))]
    omega

theorem scan_quoteBody (sep : Char) (s : List Char) :
    scanChars (jsonQuoteBody s) (true, false) = (true, false) ∧
    countEffSep sep (jsonQuoteBody s) (true, false) = 0 := by
  induction s with
  | nil => exact ⟨rfl, rfl⟩
  | cons c cs ih =>
    show scanChars (jsonQuoteChar c ++ jsonQuoteBody cs) _ = _ ∧
      countEffSep sep (jsonQuoteChar c ++ jsonQuoteBody cs) _ = 0
    rw [scanChars_append, countEffSep_append]
    have hstep : scanChars (jsonQuoteChar c) (true, false) = (true, false) ∧
        countEffSep sep (jsonQuoteChar c) (true, false) = 0 := by
      unfold jsonQuoteChar
      by_cases h1 : c = '"'
      · rw [if_pos h1]
        constructor
        · simp [scanChars, scanStep]
        · simp [countEffSep, isEffSep, scanStep]
      · rw [if_neg h1]
        by_cases h2 : c = '\\'
        · rw [if_pos h2]
          constructor
          · simp [scanChars, scanStep]
          · simp [countEffSep, isEffSep, scanStep]
        · rw [if_neg h2]
          by_cases h3 : c.toNat = 8
          · rw [if_pos h3]
            exact ⟨by simp [scanChars, scanStep], by simp [countEffSep, isEffSep, scanStep]⟩
          · rw [if_neg h3]
            by_cases h4 : c.toNat = 9
            · rw [if_pos h4]
              exact ⟨by simp [scanChars, scanStep], by simp [countEffSep, isEffSep, scanStep]⟩
            · rw [if_neg h4]
              by_cases h5 : c.toNat = 10
              · rw [if_pos h5]
                exact ⟨by simp [scanChars, scanStep],
                  by simp [countEffSep, isEffSep, scanStep]⟩
              · rw [if_neg h5]
                by_cases h6 : c.toNat = 12
                · rw [if_pos h6]
                  exact ⟨by simp [scanChars, scanStep],
                    by simp [countEffSep, isEffSep, scanStep]⟩
                · rw [if_neg h6]
                  by_cases h7 : c.toNat = 13
                  · rw [if_pos h7]
                    exact ⟨by simp [scanChars, scanStep],
                      by simp [countEffSep, isEffSep, scanStep]⟩
                  · rw [if_neg h7]
                    by_cases h8 : c.toNat < 32
                    · rw [if_pos h8]
                      have hu1 : ∀ x ∈ ['0', '0', hexDigitChar (c.toNat / 16),
                          hexDigitChar (c.toNat % 16)], ¬x = '"' ∧ ¬x = '\\' := by
                        intro x hx
                        simp only [List.mem_cons, List.not_mem_nil, or_false] at hx
                        rcases hx with rfl | rfl | rfl | rfl
                        · exact ⟨by decide, by decide⟩
                        · exact ⟨by decide, by decide⟩
                        · rcases hexDigitChar_toNat (c.toNat / 16) with hh | hh <;>
                            exact ⟨fun he => by rw [he] at hh; revert hh; decide,
                              fun he => by rw [he] at hh; revert hh; decide⟩
                        · rcases hexDigitChar_toNat (c.toNat % 16) with hh | hh <;>
                            exact ⟨fun he => by rw [he] at hh; revert hh; decide,
                              fun he => by rw [he] at hh; revert hh; decide⟩
                      have hq := scan_inquote_plain sep _ hu1
                      have hsplit : ('\\' :: 'u' :: '0' :: '0' ::
                          hexDigitChar (c.toNat / 16) :: hexDigitChar (c.toNat % 16) ::
                          ([] : List Char)) = ['\\', 'u'] ++
                          ['0', '0', hexDigitChar (c.toNat / 16),
                            hexDigitChar (c.toNat % 16)] := rfl
                      have hsc : scanChars ['\\', 'u'] (true, false) = (true, false) := by
                        simp [scanChars, scanStep]
                      have hct : countEffSep sep ['\\', 'u'] (true, false) = 0 := by
                        simp [countEffSep, isEffSep, scanStep]
                      constructor
                      · rw [hsplit, scanChars_append, hsc]
                        exact hq.1
                      · rw [hsplit, countEffSep_append, hct, hsc, hq.2]
                    · rw [if_neg h8]
                      have h2' : ¬c = '\\' := h2
                      constructor
                      · simp [scanChars, scanStep_plain c true h2' h1]
                      · simp [countEffSep, isEffSep, scanStep_plain c true h2' h1, h2']
    rw [hstep.1, hstep.2, ih.1, ih.2]
    exact ⟨rfl, rfl⟩

theorem scan_jsonQuoteChars (sep : Char) (s : List Char) :
    scanChars (jsonQuoteChars s) (false, false) = (false, false) ∧
    countEffSep sep (jsonQuoteChars s) (false, false) = 0 := by
  have hb := scan_quoteBody sep s
  constructor
  · show scanChars ('"' :: (jsonQuoteBody s ++ ['"'])) (false, false) = _
    rw [scanChars_cons, scanStep_quote]
    simp only [Bool.not_false]
    rw [scanChars_append, hb.1]
    simp [scanChars, scanStep]
  · show countEffSep sep ('"' :: (jsonQuoteBody s ++ ['"'])) (false, false) = 0
    rw [countEffSep, scanStep_quote]
    simp only [Bool.not_false]
    rw [countEffSep_append, hb.2, hb.1]
    have h1 : isEffSep sep (false, false) '"' = false := by simp [isEffSep]
    have h2 : countEffSep sep ['"'] (true, false) = 0 := by
      simp [countEffSep, isEffSep]
    rw [h1, h2]
    simp

/-! ### Splitting rejoined rows -/

theorem splitAux_single (sep : Char) (cs buf : List Char) (q e : Bool)
    (h : countEffSep sep cs (q, e) = 0) :
    splitAux sep cs buf q e = [buf ++ cs] := by
  have hlen := splitAux_length sep cs buf q e
  rw [h] at hlen
  have hjoin := splitAux_join sep cs buf q e
  cases hl : splitAux sep cs buf q e with
  | nil => exact absurd hl (splitAux_ne_nil _ _ _ _ _)
  | cons x rest =>
    rw [hl] at hlen hjoin
    have hrest : rest = [] := by
      simp only [List.length_cons] at hlen
      exact List.length_eq_zero.mp (by omega)
    subst hrest
    rw [show joinChars sep [x] = x from rfl] at hjoin
    rw [hjoin]

theorem splitAux_joinRows (sep : Char) (hs1 : ¬sep = '"') (hs2 : ¬sep = '\\') :
    ∀ rows : List (List Char), rows ≠ [] →
      (∀ r ∈ rows, scanChars r (false, false) = (false, false) ∧
        countEffSep sep r (false, false) = 0) →
      splitAux sep (joinChars sep rows) [] false false = rows := by
  intro rows
  induction rows with
  | nil => intro h _; exact absurd rfl h
  | cons r rest ih =>
    intro _ hok
    cases rest with
    | nil =>
      rw [show joinChars sep [r] = r from rfl]
      rw [splitAux_single sep r [] false false (hok r (by simp)).2]
      rfl
    | cons r2 rest2 =>
      rw [joinChars_cons sep r _ (by simp)]
      rw [splitAux_append]
      rw [splitAux_single sep r [] false false (hok r (by simp)).2]
      rw [(hok r (by simp)).1]
      simp only [List.dropLast_single, List.getLastD_cons, List.getLastD_nil, List.nil_append]
      rw [splitAux_cons_sep sep _ _ hs2 hs1]
      rw [ih (by simp) (fun x hx => hok x (by simp [hx]))]

theorem goodKey_facts (k : String) (h : GoodKeyB k = true) :
    k.data ≠ [] ∧ (∀ c ∈ k.data, ¬c = '"' ∧ ¬c = '\\' ∧ ¬c = ';' ∧ ¬c = '|') ∧
    trimS k = k ∧ ¬k = "" := by
  unfold GoodKeyB at h
  simp only [Bool.and_eq_true, decide_eq_true_eq, List.all_eq_true] at h
  obtain ⟨⟨⟨hne, hall⟩, hhd⟩, hlast⟩ := h
  have hall' : ∀ c ∈ k.data, ¬c = '"' ∧ ¬c = '\\' ∧ ¬c = ';' ∧ ¬c = '|' := by
    intro c hc
    have := hall c hc
    simp only [Bool.and_eq_true, Bool.not_eq_true', decide_eq_false_iff_not] at this
    exact ⟨this.1.1.1, this.1.1.2, this.1.2, this.2⟩
  refine ⟨hne, hall', ?_, ?_⟩
  · apply trimS_id
    · intro c hc
      rw [hc] at hhd
      simpa using hhd
    · intro c hc
      rw [hc] at hlast
      simpa using hlast
  · intro he
    apply hne
    rw [he]

theorem intToDecString_chars (i : Int) (c : Char) (h : c ∈ (intToDecString i).data) :
    c.toNat = 45 ∨ (48 ≤ c.toNat ∧ c.toNat ≤ 57) := by
  rw [intToDecString_data] at h
  have hdig : ∀ d ∈ natDigits i.natAbs, 48 ≤ d.toNat ∧ d.toNat ≤ 57 := by
    intro d hd
    have := natDigits_all_digits i.natAbs
    rw [List.all_eq_true] at this
    exact (isDigitB_toNat d).mp (this d hd)
  by_cases hneg : i < 0
  · rw [if_pos hneg] at h
    rcases List.mem_cons.mp h with rfl | h'
    · left; rfl
    · right; exact hdig c h'
  · rw [if_neg hneg] at h
    right; exact hdig c h

theorem rawText_scan (v : SupportedValue) (sep : Char)
    (hsep : sep = ';' ∨ sep = '|') :
    scanChars (rawText v).data (false, false) = (false, false) ∧
    countEffSep sep (rawText v).data (false, false) = 0 := by
  cases v with
  | str s => exact scan_jsonQuoteChars sep s.data
  | num n =>
    cases n with
    | fin i =>
      apply scan_plain
      intro c hc
      have := intToDecString_chars i c hc
      rcases hsep with rfl | rfl <;>
        refine ⟨fun he => ?_, fun he => ?_, fun he => ?_⟩ <;>
          (rw [he] at this; revert this; decide)
    | nan => exact ⟨rfl, rfl⟩
    | posInf => exact ⟨rfl, rfl⟩
    | negInf => exact ⟨rfl, rfl⟩
  | boolean b =>
    cases b <;> rcases hsep with rfl | rfl <;>
      exact ⟨by decide, by decide⟩
  | date dt => exact scan_jsonQuoteChars sep (formatISO dt).data
  | null => exact ⟨rfl, rfl⟩

theorem aliasStr_scan (al : TypeAlias) (sep : Char) (hsep : sep = ';' ∨ sep = '|') :
    scanChars (aliasStr al).data (false, false) = (false, false) ∧
    countEffSep sep (aliasStr al).data (false, false) = 0 := by
  cases al <;> rcases hsep with rfl | rfl <;> exact ⟨by decide, by decide⟩

theorem jsonQuoteS_getLast (s : String) : (jsonQuoteS s).data.getLast? = some '"' := by
  show (jsonQuoteChars s.data).getLast? = some '"'
  unfold jsonQuoteChars
  rw [show ('"' :: (jsonQuoteBody s.data ++ ['"'])) =
    ('"' :: jsonQuoteBody s.data) ++ ['"'] from rfl]
  exact List.getLast?_concat _

theorem trimS_jsonQuoteS (s : String) : trimS (jsonQuoteS s) = jsonQuoteS s := by
  apply trimS_id
  · intro c hc
    have hc' : some '"' = some c := by
      rw [← hc]; rfl
    rw [← Option.some_inj.mp hc']
    decide
  · intro c hc
    rw [jsonQuoteS_getLast] at hc
    rw [← Option.some_inj.mp hc]
    decide

theorem intToDecString_ne_empty (i : Int) : ¬intToDecString i = "" := by
  intro h
  have hd : (intToDecString i).data = [] := by rw [h]
  rw [intToDecString_data] at hd
  by_cases hneg : i < 0
  · rw [if_pos hneg] at hd
    exact List.cons_ne_nil _ _ hd
  · rw [if_neg hneg] at hd
    exact natDigits_ne_nil _ hd

theorem aliasOfString_trim_aliasStr (al : TypeAlias) :
    aliasOfString (trimS (aliasStr al)) = some al := by
  cases al <;> decide

theorem aliasParse_rawText (v : SupportedValue) (hv : cleanValueB v = true) :
    aliasParse (inferAlias v) (rawText v) = .ok (roundValue v) := by
  cases v with
  | str s =>
    show aliasParse .s (jsonQuoteS s) = .ok (.str s)
    unfold aliasParse
    simp only [trimS_jsonQuoteS]
    rw [if_pos ⟨rfl, jsonQuoteS_getLast s⟩, junquoteS_jsonQuoteS]
  | num n =>
    cases n with
    | fin i =>
      show aliasParse .n (intToDecString i) = .ok (.num (.fin i))
      unfold aliasParse
      simp only [trimS_intToDecString]
      rw [if_neg (intToDecString_ne_empty i), jsNumberParse_intToDecString]
    | nan => decide
    | posInf => decide
    | negInf => decide
  | boolean b => cases b <;> decide
  | date dt =>
    have hvd : validDate dt = true := hv
    show aliasParse .d (jsonQuoteS (formatISO dt)) = .ok (.date dt)
    unfold aliasParse
    simp only [trimS_jsonQuoteS]
    rw [if_pos ⟨rfl, jsonQuoteS_getLast (formatISO dt)⟩, junquoteS_jsonQuoteS]
    show (match parseISOChars (formatISOChars dt) with
      | some dt => Except.ok (SupportedValue.date dt)
      | none => Except.error ("Invalid date: " ++ jsonQuoteS (formatISO dt))) = _
    rw [parseISOChars_format dt hvd]
  | null => decide

theorem renderRow_data (k : String) (v : SupportedValue) :
    (renderRow k v).data =
      joinChars ';' [k.data, (aliasStr (inferAlias v)).data, (rawText v).data] := by
  show (k ++ ";" ++ aliasStr (inferAlias v) ++ ";" ++ rawText v).data = _
  simp [joinChars, String.data_append, List.append_assoc]

theorem splitRow_renderRow (k : String) (v : SupportedValue)
    (hk : GoodKeyB k = true) :
    splitOutsideQuotes (renderRow k v) ';' = [k, aliasStr (inferAlias v), rawText v] := by
  obtain ⟨hne, hall, _, _⟩ := goodKey_facts k hk
  have hscan : ∀ r ∈ [k.data, (aliasStr (inferAlias v)).data, (rawText v).data],
      scanChars r (false, false) = (false, false) ∧
      countEffSep ';' r (false, false) = 0 := by
    intro r hr
    rcases List.mem_cons.mp hr with rfl | hr
    · exact scan_plain ';' _ (fun c hc =>
        ⟨(hall c hc).1, (hall c hc).2.1, (hall c hc).2.2.1⟩)
    rcases List.mem_cons.mp hr with rfl | hr
    · exact aliasStr_scan _ ';' (Or.inl rfl)
    rcases List.mem_cons.mp hr with rfl | hr
    · exact rawText_scan v ';' (Or.inl rfl)
    · simp at hr
  unfold splitOutsideQuotes
  rw [renderRow_data,
    splitAux_joinRows ';' (by decide) (by decide) _ (by simp) hscan]
  rfl

theorem parseRow_renderRow (k : String) (v : SupportedValue)
    (hk : GoodKeyB k = true) (hv : cleanValueB v = true) :
    parseRow (renderRow k v) = .ok (k, roundValue v) := by
  obtain ⟨hne, hall, htrim, hkne⟩ := goodKey_facts k hk
  unfold parseRow
  rw [splitRow_renderRow k v hk]
  simp only [htrim]
  rw [if_neg hkne]
  simp only [aliasOfString_trim_aliasStr, aliasParse_rawText v hv]

theorem encodeValue_clean (k : String) (v : SupportedValue) (hv : cleanValueB v = true) :
    encodeValue (inferAlias v) k v = .ok (rawText v) := by
  cases v with
  | str s => rfl
  | num n => cases n <;> rfl
  | boolean b => rfl
  | date dt =>
    show (if validDate dt = true then Except.ok (jsonQuoteS (formatISO dt))
      else Except.error "RangeError: Invalid time value") =
      Except.ok (rawText (SupportedValue.date dt))
    have hv' : validDate dt = true := hv
    rw [if_pos hv']
    rfl
  | null => rfl

theorem encodeRowsAux_clean :
    ∀ l : List (String × EncodableValue),
      (∀ p ∈ l, ∃ v, p.2 = some v ∧ cleanValueB v = true) →
      encodeRowsAux l = .ok (l.map (fun p => renderRow p.1 (p.2.getD .null))) := by
  intro l
  induction l with
  | nil => intro _; rfl
  | cons p t ih =>
    intro h
    obtain ⟨v, hv, hc⟩ := h p (List.mem_cons_self p t)
    obtain ⟨k, ov⟩ := p
    have hv' : ov = some v := hv
    subst hv'
    show encodeRowsAux ((k, some v) :: t) = _
    rw [encodeRowsAux_cons_some, encodeValue_clean k v hc,
      ih (fun q hq => h q (List.mem_cons_of_mem _ hq))]
    simp [Bind.bind, Except.bind, Except.map, renderRow]

theorem renderRow_length_pos (k : String) (v : SupportedValue) :
    (renderRow k v).length > 0 := by
  rw [show (renderRow k v).length = (renderRow k v).data.length from rfl, renderRow_data]
  simp [joinChars]

theorem renderRow_scan (k : String) (v : SupportedValue) (hk : GoodKeyB k = true) :
    scanChars (renderRow k v).data (false, false) = (false, false) ∧
    countEffSep '|' (renderRow k v).data (false, false) = 0 := by
  obtain ⟨hne, hall, _, _⟩ := goodKey_facts k hk
  have hsh : (renderRow k v).data =
      k.data ++ [';'] ++ (aliasStr (inferAlias v)).data ++ [';'] ++ (rawText v).data := by
    rw [renderRow_data]
    simp [joinChars]
  obtain ⟨hka, hkc⟩ := scan_plain '|' k.data (fun c hc =>
    ⟨(hall c hc).1, (hall c hc).2.1, (hall c hc).2.2.2⟩)
  obtain ⟨haa, hac⟩ := aliasStr_scan (inferAlias v) '|' (Or.inr rfl)
  obtain ⟨hra, hrc⟩ := rawText_scan v '|' (Or.inr rfl)
  constructor
  · simp only [hsh, scanChars_append, hka,
      show scanChars [';'] (false, false) = (false, false) from rfl, haa, hra]
  · simp only [hsh, countEffSep_append, scanChars_append, hka, hkc, haa, hac, hra, hrc,
      show scanChars [';'] (false, false) = (false, false) from rfl,
      show countEffSep '|' [';'] (false, false) = 0 from rfl]

theorem map_mk_data (l : List String) :
    l.map (fun s => ((⟨s.data⟩ : String))) = l := by
  induction l with
  | nil => rfl
  | cons a t ih => simp [ih]

theorem docRows_joinWith (rows : List String) (hne : rows ≠ [])
    (hscan : ∀ r ∈ rows, scanChars r.data (false, false) = (false, false) ∧
      countEffSep '|' r.data (false, false) = 0)
    (hlen : ∀ r ∈ rows, r.length > 0) :
    docRows (joinWith '|' rows) = rows := by
  unfold docRows joinWith splitOutsideQuotes
  rw [show (⟨joinChars '|' (rows.map String.data)⟩ : String).data =
    joinChars '|' (rows.map String.data) from rfl]
  rw [splitAux_joinRows '|' (by decide) (by decide) (rows.map String.data)
    (by simpa using hne)
    (by intro r hr
        obtain ⟨s, hs, rfl⟩ := List.mem_map.mp hr
        exact hscan s hs)]
  rw [List.map_map]
  rw [show List.map ((fun l => (⟨l⟩ : String)) ∘ String.data) rows =
    List.map (fun s => ((⟨s.data⟩ : String))) rows from rfl, map_mk_data]
  rw [List.filter_eq_self.mpr]
  intro a ha
  simpa using hlen a ha

theorem decodeRowsAux_renderRows :
    ∀ (l : List (String × SupportedValue)) (acc : List (String × SupportedValue)),
      (∀ p ∈ l, GoodKeyB p.1 = true ∧ cleanValueB p.2 = true) →
      (l.map Prod.fst).Nodup →
      (∀ p ∈ l, acc.any (fun q => q.1 = p.1) = false) →
      decodeRowsAux (l.map (fun p => renderRow p.1 p.2)) acc =
        .ok (acc ++ l.map (fun p => (p.1, roundValue p.2))) := by
  intro l
  induction l with
  | nil => intro acc _ _ _; simp [decodeRowsAux]
  | cons p t ih =>
    intro acc hgood hnd hfresh
    obtain ⟨hk, hv⟩ := hgood p (List.mem_cons_self p t)
    rw [List.map_cons]
    unfold decodeRowsAux
    rw [parseRow_renderRow p.1 p.2 hk hv]
    show decodeRowsAux (List.map (fun p => renderRow p.1 p.2) t)
      (setKey acc p.1 (roundValue p.2)) = _
    have hset : setKey acc p.1 (roundValue p.2) = acc ++ [(p.1, roundValue p.2)] := by
      unfold setKey
      rw [if_neg]
      rw [hfresh p (List.mem_cons_self p t)]
      simp
    rw [hset]
    have hnotmem : p.1 ∉ t.map Prod.fst := by
      rw [List.map_cons] at hnd
      exact (List.nodup_cons.mp hnd).1
    rw [ih (acc ++ [(p.1, roundValue p.2)])
      (fun q hq => hgood q (List.mem_cons_of_mem _ hq))
      (by rw [List.map_cons] at hnd; exact (List.nodup_cons.mp hnd).2)
      (by intro q hq
          rw [List.any_append]
          rw [hfresh q (List.mem_cons_of_mem _ hq)]
          simp only [Bool.false_or, List.any_cons, List.any_nil, Bool.or_false]
          simp only [decide_eq_false_iff_not]
          intro he
          exact hnotmem (he ▸ List.mem_map_of_mem Prod.fst hq))]
    simp

/-- **C1** (corrected).  Round trip: for a flat record whose keys are
distinct, wire-safe (non-empty, free of `;`, `|`, `"`, `\`, and with no
leading/trailing whitespace) and whose values are all present (no
`undefined`) and clean (dates valid), `encode` succeeds and `decode` of
the document recovers the record up to the key sort performed by
`encode` — with every non-finite number replaced by `null` — and the
result is a permutation of the `roundValue`-image of the record.  The
literal claim (every supported-value record round-trips) is refuted by
`c1_round_trip_counterexample`: a key containing `;` encodes to an
undecodable document, and an invalid date makes `encode` itself throw. -/
theorem c1_round_trip (r : List (String × EncodableValue))
    (hnd : (r.map Prod.fst).Nodup)
    (hgood : ∀ p ∈ r, GoodKeyB p.1 = true)
    (hclean : ∀ p ∈ r, ∃ v, p.2 = some v ∧ cleanValueB v = true) :
    ∃ doc, encode r = .ok doc ∧
      decode doc = .ok ((sortByKey r).map
        (fun p => (p.1, roundValue (p.2.getD .null)))) ∧
      ((sortByKey r).map (fun p => (p.1, roundValue (p.2.getD .null)))).Perm
        (r.map (fun p => (p.1, roundValue (p.2.getD .null)))) := by
  have hperm : (sortByKey r).Perm r := sortByLe_perm _ r
  have hpermOut : ((sortByKey r).map
      (fun p => (p.1, roundValue (p.2.getD .null)))).Perm
      (r.map (fun p => (p.1, roundValue (p.2.getD .null)))) := hperm.map _
  have hgoodS : ∀ p ∈ sortByKey r, GoodKeyB p.1 = true :=
    fun p hp => hgood p (hperm.mem_iff.mp hp)
  have hcleanS : ∀ p ∈ sortByKey r, ∃ v, p.2 = some v ∧ cleanValueB v = true :=
    fun p hp => hclean p (hperm.mem_iff.mp hp)
  have hrows := encodeRowsAux_clean (sortByKey r) hcleanS
  cases r with
  | nil => exact ⟨"", rfl, rfl, List.Perm.refl _⟩
  | cons hd tl =>
    have hmap1 : (sortByKey (hd :: tl)).map (fun p => renderRow p.1 (p.2.getD .null)) =
        ((sortByKey (hd :: tl)).map (fun p => (p.1, p.2.getD .null))).map
          (fun p => renderRow p.1 p.2) := by
      rw [List.map_map]
      rfl
    have hmap2 : (((sortByKey (hd :: tl)).map (fun p => (p.1, p.2.getD .null))).map
          (fun p => (p.1, roundValue p.2))) =
        (sortByKey (hd :: tl)).map (fun p => (p.1, roundValue (p.2.getD .null))) := by
      rw [List.map_map]
      rfl
    refine ⟨joinWith '|' ((sortByKey (hd :: tl)).map
      (fun p => renderRow p.1 (p.2.getD .null))), ?_, ?_, hpermOut⟩
    · unfold encode
      rw [hrows]
      simp [Bind.bind, Except.bind]
    · have hrowsne : (sortByKey (hd :: tl)).map
          (fun p => renderRow p.1 (p.2.getD .null)) ≠ [] := by
        apply List.ne_nil_of_length_pos
        rw [List.length_map, hperm.length_eq]
        simp
      have hscanRows : ∀ s ∈ (sortByKey (hd :: tl)).map
          (fun p => renderRow p.1 (p.2.getD .null)),
          scanChars s.data (false, false) = (false, false) ∧
          countEffSep '|' s.data (false, false) = 0 := by
        intro s hs
        obtain ⟨p, hp, rfl⟩ := List.mem_map.mp hs
        exact renderRow_scan p.1 (p.2.getD .null) (hgoodS p hp)
      have hlenRows : ∀ s ∈ (sortByKey (hd :: tl)).map
          (fun p => renderRow p.1 (p.2.getD .null)), s.length > 0 := by
        intro s hs
        obtain ⟨p, hp, rfl⟩ := List.mem_map.mp hs
        exact renderRow_length_pos _ _
      have hgoodl' : ∀ p ∈ (sortByKey (hd :: tl)).map (fun p => (p.1, p.2.getD .null)),
          GoodKeyB p.1 = true ∧ cleanValueB p.2 = true := by
        intro p hp
        obtain ⟨q, hq, rfl⟩ := List.mem_map.mp hp
        obtain ⟨v, hv, hc⟩ := hcleanS q hq
        refine ⟨hgoodS q hq, ?_⟩
        show cleanValueB (q.2.getD .null) = true
        rw [hv]
        exact hc
      have hndl' : (((sortByKey (hd :: tl)).map
          (fun p => (p.1, p.2.getD .null))).map Prod.fst).Nodup := by
        have heq : ((sortByKey (hd :: tl)).map
            (fun p => (p.1, p.2.getD .null))).map Prod.fst =
            (sortByKey (hd :: tl)).map Prod.fst := by
          rw [List.map_map]
          rfl
        rw [heq]
        exact ((hperm.map Prod.fst).nodup_iff).mpr hnd
      unfold decode
      rw [docRows_joinWith _ hrowsne hscanRows hlenRows, hmap1,
        decodeRowsAux_renderRows _ [] hgoodl' hndl' (fun p hp => rfl),
        List.nil_append, hmap2]

theorem c1_round_trip_witness :
    ∃ doc, encode [("k", some (SupportedValue.str "a;b|c\"d"))] = .ok doc ∧
      decode doc = .ok ((sortByKey [("k", some (SupportedValue.str "a;b|c\"d"))]).map
        (fun p => (p.1, roundValue (p.2.getD .null)))) ∧
      ((sortByKey [("k", some (SupportedValue.str "a;b|c\"d"))]).map
        (fun p => (p.1, roundValue (p.2.getD .null)))).Perm
        ([("k", some (SupportedValue.str "a;b|c\"d"))].map
          (fun p => (p.1, roundValue (p.2.getD .null)))) :=
  c1_round_trip [("k", some (SupportedValue.str "a;b|c\"d"))] (by decide) (by decide)
    (by intro p hp
        rw [List.mem_singleton.mp hp]
        exact ⟨SupportedValue.str "a;b|c\"d", rfl, rfl⟩)

theorem c1_round_trip_counterexample :
    encode [(";", some (SupportedValue.num (JSNum.fin 1)))] = .ok ";;n;1" ∧
    isErr (decode ";;n;1") = true ∧
    isErr (encode [("a", some (SupportedValue.date ⟨2020, 13, 1, 0, 0, 0, 0⟩))]) = true := by
  refine ⟨?_, ?_, ?_⟩ <;> decide
